import Mathlib

/-
Verification of the minimal service supervisor (ServiceLoader + SimpleDinit)
and of the grading runner of this repository.

The supervisor implementation files (manual_dinit.py / dinit_manager.py) are
not present in the source tree; only their callers are.  The supervisor
definitions below are therefore modelled from the spec, faithful to its words
(data model in section 3, Loader in 4.1, Resolver in 4.2, Engine in 4.3).
The grading runner definitions are translated from src/grading/runner.py.

All recursion is fuel-based structural recursion, so every definition is
executable and kernel-reducible.
-/

/-- Modelled from the spec: classification of a service, section 3.
A process is expected to keep running; a target is a virtual grouping node. -/
inductive SKind where
  | process
  | target
deriving DecidableEq, Repr

/-- Modelled from the spec: one manageable unit (section 3), with identity,
argv-style command, dependency set and classification.  The two optional
passthrough fields carry no semantics here and are omitted. -/
structure Service where
  name : String
  command : List String
  depends_on : List String
  kind : SKind
deriving DecidableEq, Repr

/-- Modelled from the spec: the registry is a mapping from service name to
Service, built once by the Loader.  It is represented as a list so that the
input declaration order (the tie-break order of section 4.2) is retained. -/
abbrev Registry := List Service

/-- Look a service up by name (first declaration wins). -/
def findService (r : Registry) (n : String) : Option Service :=
  r.find? (fun s => s.name == n)

/-- The declared service names, in declaration order. -/
def names (r : Registry) : List String :=
  r.map Service.name

/-- The dependency list of the named service (empty when absent). -/
def depsOf (r : Registry) (n : String) : List String :=
  match findService r n with
  | some s => s.depends_on
  | none => []

/-- Direct dependency edge: service a declares b in its depends_on set. -/
def dependsOnB (r : Registry) (a b : String) : Bool :=
  (depsOf r a).contains b

/-- A list of names each of which directly depends on the next. -/
def isChainB (r : Registry) : List String → Bool
  | [] => true
  | [_] => true
  | a :: b :: rest => dependsOnB r a b && isChainB r (b :: rest)

/-- A nonempty dependency cycle: consecutive edges along the list, and the
last element depends on the first. -/
def isCycleB (r : Registry) (c : List String) : Bool :=
  match c with
  | [] => false
  | a :: _ => isChainB r c && dependsOnB r (c.getLastD "") a

/-- y directly or transitively depends on x: there is a dependency chain of
length at least two from y to x. -/
def DependsOn (r : Registry) (y x : String) : Prop :=
  ∃ ch : List String,
    2 ≤ ch.length ∧ isChainB r ch = true ∧ ch.head? = some y ∧ ch.getLast? = some x

/-- First unresolved dependency reference, as (missing name, referrer name). -/
def firstUnresolved (r : Registry) : Option (String × String) :=
  r.findSome? (fun s =>
    (s.depends_on.find? (fun d => (findService r d).isNone)).map (fun d => (d, s.name)))

/-- A service is eligible for the next layer when all its dependencies have
already been placed in earlier layers. -/
def depsPlaced (placed : List String) (s : Service) : Bool :=
  s.depends_on.all (fun d => placed.contains d)

/-- Modelled from the spec: Kahn-style layering (section 4.2).  Each layer is
the set of remaining services whose dependencies are all in earlier layers,
taken in declaration order.  Returns the layers and the leftover services
(nonempty exactly when the remaining graph has a cycle). -/
def layersAux (fuel : Nat) (remaining : List Service) (placed : List String) :
    List (List Service) × List Service :=
  match fuel with
  | 0 => ([], remaining)
  | fuel + 1 =>
    let ready := remaining.filter (depsPlaced placed)
    if ready.isEmpty then ([], remaining)
    else
      let rest := remaining.filter (fun s => !depsPlaced placed s)
      let next := layersAux fuel rest (placed ++ ready.map Service.name)
      (ready :: next.1, next.2)

/-- One saturation step of the dependency closure: append all dependencies of
the current set that are not yet in it. -/
def closureStep (r : Registry) (cur : List String) : List String :=
  ((cur.map (depsOf r)).flatten).filter (fun d => !cur.contains d)

/-- Fuel-bounded fixpoint iteration of closureStep. -/
def closureAux (r : Registry) : Nat → List String → List String
  | 0, cur => cur
  | fuel + 1, cur =>
    let nw := closureStep r cur
    if nw.isEmpty then cur else closureAux r fuel (cur ++ nw.dedup)

/-- Modelled from the spec: closure(T), the target plus its transitive
dependency set (section 4.2). -/
def closureNames (r : Registry) (t : String) : List String :=
  closureAux r r.length [t]

/-- The registry restricted to the closure of the target, in declaration
order. -/
def closureRegistry (r : Registry) (t : String) : Registry :=
  r.filter (fun s => (closureNames r t).contains s.name)

/-- Modelled from the spec: the Resolver (section 4.2).  Computes the layers
of the closure of the target, plus the leftover services (empty for every
validated registry). -/
def resolveLayers (r : Registry) (t : String) : List (List Service) × List Service :=
  let sub := closureRegistry r t
  layersAux sub.length sub []

/-- Drop elements until the given name is at the head (used to cut a cycle
out of a visited path). -/
def dropUntil (n : String) : List String → List String
  | [] => []
  | x :: xs => if x == n then x :: xs else dropUntil n xs

/-- Some dependency of n that lies in the given name set. -/
def depInSet (r : Registry) (keep : List String) (n : String) : Option String :=
  (depsOf r n).find? (fun d => keep.contains d)

/-- Walk dependency edges inside the leftover set until a name repeats, then
return the concrete cycle found. -/
def walkCycle (r : Registry) (keep : List String) :
    Nat → List String → String → List String
  | 0, path, _ => path
  | fuel + 1, path, n =>
    if path.contains n then dropUntil n path
    else
      match depInSet r keep n with
      | some d => walkCycle r keep fuel (path ++ [n]) d
      | none => []

/-- Extract one concrete cycle from the leftover of a failed layering pass. -/
def findCycle (r : Registry) (leftover : List Service) : List String :=
  match leftover with
  | [] => []
  | s :: _ => walkCycle r (leftover.map Service.name) (leftover.length + 1) [] s.name

/-- Modelled from the spec: the Loader error taxonomy (section 7). -/
inductive LoadError where
  | definitionError (msg : String)
  | unresolvedDependencyError (missing : String) (referrer : String)
  | cyclicDependencyError (cycle : List String)
deriving DecidableEq, Repr

/-- Modelled from the spec: ServiceLoader.load_all validation (section 4.1).
Parsing of the on-disk files is out of scope (the concrete schema is an
implementation choice); the input is the parsed definition list.  Validation
rejects duplicate names, then unresolved dependency references, then runs a
full Kahn pass on the whole graph and rejects any cycle, naming one concrete
cycle.  It launches nothing. -/
def load_all (r : Registry) : Except LoadError Registry :=
  if (names r).Nodup then
    match firstUnresolved r with
    | some (d, referrer) => .error (.unresolvedDependencyError d referrer)
    | none =>
      let res := layersAux r.length r []
      if res.2.isEmpty then .ok r
      else .error (.cyclicDependencyError (findCycle r res.2))
  else .error (.definitionError "duplicate service name")

/-- True exactly when load_all accepts the registry. -/
def loadOk (r : Registry) : Bool :=
  match load_all r with
  | .ok _ => true
  | .error _ => false

/-- Modelled from the spec: per-service lifecycle state (section 3). -/
inductive ServiceState where
  | Pending
  | Starting
  | Ready
  | Failed
  | Skipped
deriving DecidableEq, Repr

/-- The engine-owned map from service name to its state, in processing
order. -/
abbrev StateMap := List (String × ServiceState)

/-- Look up the recorded state of a service. -/
def lookupState (st : StateMap) (n : String) : Option ServiceState :=
  (st.find? (fun p => p.1 == n)).map Prod.snd

/-- All declared dependencies of s have reached Ready. -/
def depsAllReady (st : StateMap) (s : Service) : Bool :=
  s.depends_on.all (fun d => lookupState st d == some ServiceState.Ready)

/-- Modelled from the spec: outcome of attempting a service (section 4.3).
A target node transitions directly to Ready; a process is spawned and ends
Ready when the spawn (and any readiness probe) succeeds, Failed otherwise.
The external spawn/probe outcome is the oracle spawnOk. -/
def launchOutcome (spawnOk : String → Bool) (s : Service) : ServiceState :=
  match s.kind with
  | .target => ServiceState.Ready
  | .process => if spawnOk s.name then ServiceState.Ready else ServiceState.Failed

/-- Modelled from the spec: the state machine step (section 4.3).  A service
whose dependencies are all Ready is attempted; otherwise (some dependency
Failed or Skipped) it is Skipped without an attempt. -/
def stepService (spawnOk : String → Bool) (st : StateMap) (s : Service) : ServiceState :=
  if depsAllReady st s then launchOutcome spawnOk s else ServiceState.Skipped

/-- A process spawn is attempted exactly when the dependencies are all Ready
and the service is of process kind. -/
def isLaunched (st : StateMap) (s : Service) : Bool :=
  depsAllReady st s && (s.kind == SKind.process)

/-- Run one layer against the state snapshot taken when the layer begins
(services inside one layer run concurrently and do not observe each other).
Returns the new state entries and the names of the spawned processes. -/
def runLayer (spawnOk : String → Bool) (snap : StateMap) (layer : List Service) :
    StateMap × List String :=
  (layer.map (fun s => (s.name, stepService spawnOk snap s)),
   (layer.filter (fun s => isLaunched snap s)).map Service.name)

/-- Modelled from the spec: layers execute strictly in sequence (section 5);
each new layer starts from the states accumulated by the previous ones. -/
def runLayers (spawnOk : String → Bool) :
    List (List Service) → StateMap → List String → StateMap × List String
  | [], st, ln => (st, ln)
  | layer :: rest, st, ln =>
    let stepRes := runLayer spawnOk st layer
    runLayers spawnOk rest (st ++ stepRes.1) (ln ++ stepRes.2)

/-- Modelled from the spec: the aggregate boot report (section 6): overall
success plus a per-service report covering the resolved closure. -/
structure BootResult where
  success : Bool
  states : StateMap
deriving DecidableEq, Repr

/-- Modelled from the spec: the engine error for a missing target. -/
inductive StartError where
  | unknownTargetError (t : String)
deriving DecidableEq, Repr

/-- Modelled from the spec: SimpleDinit.start (section 4.3) instrumented with
its effect log: the returned list is the names of the processes spawned, in
launch order.  An unknown target is rejected before any state is created or
any process spawned. -/
def startFull (r : Registry) (spawnOk : String → Bool) (t : String) :
    Except StartError BootResult × List String :=
  match findService r t with
  | none => (.error (.unknownTargetError t), [])
  | some _ =>
    let layers := (resolveLayers r t).1
    let run := runLayers spawnOk layers [] []
    (.ok { success := run.1.all (fun p => p.2 == ServiceState.Ready), states := run.1 },
     run.2)

/-- Modelled from the spec: SimpleDinit.start, the caller-facing result. -/
def SimpleDinit.start (r : Registry) (spawnOk : String → Bool) (t : String) :
    Except StartError BootResult :=
  (startFull r spawnOk t).1

/-- The names of the processes spawned by one start invocation. -/
def SimpleDinit.launches (r : Registry) (spawnOk : String → Bool) (t : String) :
    List String :=
  (startFull r spawnOk t).2

/-- The caller pipeline (environment/server.py setup_dinit and
hud_controller/setup.py start_dinit): load_all, then start, with structural
errors surfaced as exceptions and the boot report returned normally. -/
def setup_dinit (r : Registry) (spawnOk : String → Bool) (t : String) :
    (Except (LoadError ⊕ StartError) BootResult) × List String :=
  match load_all r with
  | .error e => (.error (.inl e), [])
  | .ok reg =>
    match startFull reg spawnOk t with
    | (.error e, ln) => (.error (.inr e), ln)
    | (.ok br, ln) => (.ok br, ln)

/-
Grading runner, translated from src/grading/runner.py.  External process
invocations and file accesses are recorded as an effect trace; branch
outcomes that depend on the outside world (build exit code, package.json
version, server readiness) are oracle inputs.
-/

/-- One external effect of the grading workflow: a subprocess invocation or a
file access, with the directories it touches. -/
inductive Cmd where
  | copyTree (src : String) (dst : String)
  | chownRecursive (owner : String) (path : String)
  | gitApply (cwd : String) (patchPath : String)
  | shellAsUbuntu (cmd : String) (cwd : String)
  | shellRoot (cmd : String) (cwd : String)
  | spawnServer (cmd : String) (cwd : String)
  | readWorkFile (path : String)
deriving DecidableEq, Repr

/-- Directories whose contents a command may modify.  Translated from the
argv each call site passes: cp -rT writes its destination, chown -R writes
its path, and every shell command runs with cwd inside the working copy. -/
def Cmd.writes : Cmd → List String
  | .copyTree _ dst => [dst]
  | .chownRecursive _ p => [p]
  | .gitApply cwd _ => [cwd]
  | .shellAsUbuntu _ cwd => [cwd]
  | .shellRoot _ cwd => [cwd]
  | .spawnServer _ cwd => [cwd]
  | .readWorkFile _ => []

/-- Paths a command reads without modifying. -/
def Cmd.reads : Cmd → List String
  | .copyTree src _ => [src]
  | .gitApply _ p => [p]
  | .readWorkFile p => [p]
  | _ => []

/-- Constructor arguments of GradingRunner (runner.py lines 33-43). -/
structure InitArgs where
  base : String
  test : String
  golden : String
  test_files : List String
  problem_id : Option String
  patches_base_dir : String
  only_server : Bool

/-- The process environment variables the runner consults. -/
structure GradingEnvVars where
  problem_id_var : Option String
  repo_path_var : Option String
  repo_url_is_sample : Bool
  test_db_name_var : Option String

/-- Python truthiness of an optional string: None and the empty string are
falsy. -/
def truthy : Option String → Bool
  | none => false
  | some s => !(s == "")

/-- The constructed runner state (the self attributes set by init). -/
structure GradingRunner where
  use_base : String
  use_test : String
  use_golden : String
  test_files : List String
  only_server : Bool
  grade_working_dir : String
  original_repo_path : String
  problem_id : String
  test_patch_path : String
  golden_patch_path : String
deriving DecidableEq, Repr

/-- GradingRunner.init, translated from runner.py lines 44-88.  The uuid
hex string is an input (uuid.uuid4 in the source).  The constructor performs
no subprocess invocation and no file access, so its effect trace is empty on
every path; it raises ValueError when neither the problem_id argument nor the
PROBLEM_ID environment variable is truthy. -/
def GradingRunner.init (args : InitArgs) (env : GradingEnvVars) (uuidStr : String) :
    Except String GradingRunner × List Cmd :=
  let wd := "/tmp/grading_workspace_" ++ uuidStr
  let orig := env.repo_path_var.getD "/home/ubuntu/[PROJECT_NAME]"
  let pid := if truthy args.problem_id then args.problem_id else env.problem_id_var
  if truthy pid then
    (.ok
      { use_base := args.base
        use_test := args.test
        use_golden := args.golden
        test_files := args.test_files
        only_server := args.only_server
        grade_working_dir := wd
        original_repo_path := orig
        problem_id := pid.getD ""
        test_patch_path := args.patches_base_dir ++ "/" ++ pid.getD "" ++ "/test.patch"
        golden_patch_path := args.patches_base_dir ++ "/" ++ pid.getD "" ++ "/golden.patch" },
     [])
  else
    (.error "problem_id is required. Set PROBLEM_ID env var or pass problem_id parameter.", [])

/-- Oracle inputs for the branches of run_grading that depend on the outside
world. -/
structure RunOracle where
  buildOk : Bool
  pkgVersionNeedsServer : Bool
  serverReady : Bool

/-- Overall outcome marker of one grading run. -/
inductive GradeOutcome where
  | compileFailed
  | serverFailed
  | completed
deriving DecidableEq, Repr

/-- The version check of runner.py lines 210-231: the sample repository
needs no server, otherwise package.json of the working copy is read and the
version threshold decides. -/
def needsServerStart (runner : GradingRunner) (env : GradingEnvVars) (oracle : RunOracle) :
    Bool × List Cmd :=
  if env.repo_url_is_sample then (false, [])
  else (oracle.pkgVersionNeedsServer,
        [Cmd.readWorkFile (runner.grade_working_dir ++ "/package.json")])

/-- The test command and result file of run_tests (runner.py lines 106-165). -/
def testInvocation (runner : GradingRunner) (env : GradingEnvVars) : String × String :=
  if env.repo_url_is_sample then
    ("/mcp_server/.venv/bin/python -m pytest --junit-xml=pytest_results.xml "
       ++ String.intercalate " " runner.test_files,
     "pytest_results.xml")
  else
    ("[TEST_COMMAND] " ++ String.intercalate " " runner.test_files,
     "[TEST_RESULTS_XML_FILE]")

/-- GradingRunner.run_grading, translated from runner.py lines 233-399: copy
the original repository into the per-instance working directory, chown the
copy, apply the test patch, build, reset the database, conditionally start
the server, then run the tests — every step operating on the working copy. -/
def run_grading (runner : GradingRunner) (env : GradingEnvVars) (oracle : RunOracle) :
    GradeOutcome × List Cmd :=
  let wd := runner.grade_working_dir
  let step1 : List Cmd :=
    [Cmd.copyTree runner.original_repo_path wd,
     Cmd.chownRecursive "ubuntu:ubuntu" wd,
     Cmd.gitApply wd runner.test_patch_path]
  let buildCmd := if env.repo_url_is_sample then "true" else "[BUILD_COMMAND]"
  let step4 := step1 ++ [Cmd.shellAsUbuntu buildCmd wd]
  if !oracle.buildOk then (GradeOutcome.compileFailed, step4)
  else
    let dbName := env.test_db_name_var.getD "test_db"
    let step5 :=
      if env.repo_url_is_sample then step4
      else
        step4 ++
          [Cmd.shellRoot ("PGPASSWORD=ubuntu psql -h localhost -U ubuntu -c \"DROP DATABASE IF EXISTS "
             ++ dbName ++ ";\"") wd,
           Cmd.shellRoot ("PGPASSWORD=ubuntu psql -h localhost -U ubuntu -c \"CREATE DATABASE "
             ++ dbName ++ ";\"") wd,
           Cmd.shellAsUbuntu "[MIGRATION_COMMAND]" wd]
    let serverCheck := needsServerStart runner env oracle
    let step6pre := step5 ++ serverCheck.2
    if serverCheck.1 then
      let step6 := step6pre ++ [Cmd.spawnServer "[SERVER_START_COMMAND]" wd]
      if !oracle.serverReady then (GradeOutcome.serverFailed, step6)
      else
        let inv := testInvocation runner env
        (GradeOutcome.completed,
         step6 ++ [Cmd.shellAsUbuntu inv.1 wd, Cmd.readWorkFile (wd ++ "/" ++ inv.2)])
    else
      let inv := testInvocation runner env
      (GradeOutcome.completed,
       step6pre ++ [Cmd.shellAsUbuntu inv.1 wd, Cmd.readWorkFile (wd ++ "/" ++ inv.2)])

/-
Concrete instances used by the example-based theorems below.
-/

/-- The example registry of spec section 8: db and web are processes, boot is
the virtual grouping target. -/
def regBootExample : Registry :=
  [{ name := "db", command := ["postgres"], depends_on := [], kind := SKind.process },
   { name := "web", command := ["node", "server.js"], depends_on := ["db"], kind := SKind.process },
   { name := "boot", command := [], depends_on := ["db", "web"], kind := SKind.target }]

/-- A two-service registry with the cycle A to B to A of spec section 8. -/
def regCycleAB : Registry :=
  [{ name := "A", command := ["a"], depends_on := ["B"], kind := SKind.process },
   { name := "B", command := ["b"], depends_on := ["A"], kind := SKind.process }]

/-- Registry with two independent services of different dependency depth:
A has no dependencies, B depends on C, and boot groups A and B.  A and B have
no dependency relationship yet land in different layers. -/
def regDepthGap : Registry :=
  [{ name := "A", command := ["a"], depends_on := [], kind := SKind.process },
   { name := "C", command := ["c"], depends_on := [], kind := SKind.process },
   { name := "B", command := ["b"], depends_on := ["C"], kind := SKind.process },
   { name := "boot", command := [], depends_on := ["A", "B"], kind := SKind.target }]

/-- A spawn oracle under which every process launch succeeds. -/
def spawnAll : String → Bool := fun _ => true

/-- A spawn oracle under which exactly the db service fails to launch. -/
def spawnFailDb : String → Bool := fun n => !(n == "db")

/-- A registry with two independent no-dependency services under one target
(both land in the first layer). -/
def regTwinPair : Registry :=
  [{ name := "a", command := ["a"], depends_on := [], kind := SKind.process },
   { name := "b", command := ["b"], depends_on := [], kind := SKind.process },
   { name := "boot", command := [], depends_on := ["a", "b"], kind := SKind.target }]

/-- Constructor arguments with no problem id, used to exercise the ValueError
path of GradingRunner.init. -/
def argsNoProblem : InitArgs :=
  { base := "main", test := "test-branch", golden := "golden-branch",
    test_files := [], problem_id := none,
    patches_base_dir := "/home/root/patches", only_server := false }

/-- Constructor arguments with a problem id, used for the normal grading
path. -/
def argsWithProblem : InitArgs :=
  { base := "main", test := "test-branch", golden := "golden-branch",
    test_files := ["test_a.py"], problem_id := some "p1",
    patches_base_dir := "/home/root/patches", only_server := false }

/-- An environment with PROBLEM_ID unset. -/
def envNoProblem : GradingEnvVars :=
  { problem_id_var := none, repo_path_var := some "/home/ubuntu/proj",
    repo_url_is_sample := true, test_db_name_var := none }

/-- An oracle for a grading run whose build succeeds and needs no server. -/
def oracleSample : RunOracle :=
  { buildOk := true, pkgVersionNeedsServer := false, serverReady := true }

/-- The runner record that GradingRunner.init builds from argsWithProblem,
envNoProblem and the uuid string u0. -/
def gradeRunnerU0 : GradingRunner :=
  { use_base := "main", use_test := "test-branch", use_golden := "golden-branch",
    test_files := ["test_a.py"], only_server := false,
    grade_working_dir := "/tmp/grading_workspace_u0",
    original_repo_path := "/home/ubuntu/proj", problem_id := "p1",
    test_patch_path := "/home/root/patches/p1/test.patch",
    golden_patch_path := "/home/root/patches/p1/golden.patch" }

/-- The boot report the engine produces on the spec example registry when
the db spawn fails. -/
def bootFailDbResult : BootResult :=
  { success := false,
    states := [("db", ServiceState.Failed), ("web", ServiceState.Skipped),
      ("boot", ServiceState.Skipped)] }

/-- The boot report the engine produces on the spec example registry when
every spawn succeeds. -/
def bootAllOkResult : BootResult :=
  { success := true,
    states := [("db", ServiceState.Ready), ("web", ServiceState.Ready),
      ("boot", ServiceState.Ready)] }

/-- A name set closed under the dependency relation of the registry. -/
def DepClosed (r : Registry) (L : List String) : Prop :=
  ∀ n ∈ L, ∀ d ∈ depsOf r n, d ∈ L

/-- Index of the first occurrence of a name in a list (length when absent). -/
def idxOf (n : String) : List String → Nat
  | [] => 0
  | x :: xs => if x == n then 0 else idxOf n xs + 1

/-- The names of a layer list, layer by layer. -/
def layerNames (ls : List (List Service)) : List (List String) :=
  ls.map (fun l => l.map Service.name)

/-- All names of a layer list, flattened in processing order. -/
def flatNames (ls : List (List Service)) : List String :=
  (layerNames ls).flatten

/-
General list helpers.
-/

theorem exists_min_nat {α : Type} (f : α → Nat) :
    ∀ (l : List α), l ≠ [] → ∃ a ∈ l, ∀ b ∈ l, f a ≤ f b := by
  intro l
  induction l with
  | nil => intro h; exact absurd rfl h
  | cons x xs ih =>
    intro _
    cases xs with
    | nil =>
      refine ⟨x, List.mem_singleton.mpr rfl, ?_⟩
      intro b hb
      rw [List.mem_singleton] at hb
      exact hb ▸ Nat.le_refl _
    | cons y ys =>
      obtain ⟨a, ha, hmin⟩ := ih (by simp)
      by_cases hxa : f x ≤ f a
      · refine ⟨x, List.mem_cons_self _ _, ?_⟩
        intro b hb
        rcases List.mem_cons.mp hb with hb | hb
        · exact hb ▸ Nat.le_refl _
        · exact Nat.le_trans hxa (hmin b hb)
      · refine ⟨a, List.mem_cons_of_mem _ ha, ?_⟩
        intro b hb
        rcases List.mem_cons.mp hb with hb | hb
        · exact hb ▸ Nat.le_of_lt (Nat.lt_of_not_le hxa)
        · exact hmin b hb

theorem filter_length_lt {α : Type} {p q : α → Bool}
    (hpq : ∀ x, p x = true → q x = true) {l : List α} {a : α}
    (ha : a ∈ l) (hqa : q a = true) (hpa : p a = false) :
    (l.filter p).length < (l.filter q).length := by
  induction l with
  | nil => cases ha
  | cons x xs ih =>
    rcases List.mem_cons.mp ha with h | h
    · subst h
      rw [List.filter_cons, List.filter_cons, hpa, hqa]
      simp only [if_true]
      have hle : (xs.filter p).length ≤ (xs.filter q).length := by
        have hsub : List.Sublist (xs.filter p) (xs.filter q) :=
          List.monotone_filter_right xs hpq
        exact hsub.length_le
      simpa using Nat.lt_succ_of_le hle
    · have hlt := ih h
      rw [List.filter_cons, List.filter_cons]
      by_cases hx : p x = true
      · rw [hx, hpq x hx]
        simpa using Nat.succ_lt_succ hlt
      · rw [Bool.not_eq_true] at hx
        rw [hx]
        by_cases hqx : q x = true
        · rw [hqx]
          simpa using Nat.lt_succ_of_le (Nat.le_of_lt hlt)
        · rw [Bool.not_eq_true] at hqx
          rw [hqx]
          simpa using hlt

theorem filter_not_length_lt {α : Type} {p : α → Bool} {l : List α}
    (h : l.filter p ≠ []) :
    (l.filter (fun x => !p x)).length < l.length := by
  obtain ⟨a, ha⟩ := List.exists_mem_of_ne_nil _ h
  have hal : a ∈ l := List.mem_of_mem_filter ha
  have hpa : p a = true := List.of_mem_filter ha
  calc (l.filter (fun x => !p x)).length
      < (l.filter (fun _ => true)).length := by
        refine filter_length_lt (fun x _ => rfl) hal rfl ?_
        simp [hpa]
    _ = l.length := by simp

/-
Registry lookup basics.
-/

theorem mem_names_iff {r : Registry} {n : String} :
    n ∈ names r ↔ ∃ s, s ∈ r ∧ s.name = n := by
  simp only [names, List.mem_map]

theorem findService_eq_some_mem {r : Registry} {n : String} {s : Service}
    (h : findService r n = some s) : s ∈ r ∧ s.name = n := by
  refine ⟨List.mem_of_find?_eq_some h, ?_⟩
  have := List.find?_some h
  simpa using this

theorem findService_isSome_iff {r : Registry} {n : String} :
    (findService r n).isSome = true ↔ n ∈ names r := by
  rw [findService, List.find?_isSome]
  constructor
  · rintro ⟨s, hs, hn⟩
    exact mem_names_iff.mpr ⟨s, hs, by simpa using hn⟩
  · intro h
    obtain ⟨s, hs, hn⟩ := mem_names_iff.mp h
    exact ⟨s, hs, by simpa using hn⟩

theorem findService_of_mem {r : Registry} {s : Service}
    (hn : (names r).Nodup) (hs : s ∈ r) : findService r s.name = some s := by
  induction r with
  | nil => cases hs
  | cons a tl ih =>
    rcases List.mem_cons.mp hs with h | h
    · subst h
      simp [findService, List.find?_cons]
    · have hna : a.name ≠ s.name := by
        intro heq
        have : a.name ∈ names tl := heq ▸ mem_names_iff.mpr ⟨s, h, rfl⟩
        have hnodup := hn
        rw [names, List.map_cons, List.nodup_cons] at hnodup
        exact hnodup.1 this
      have htl : (names tl).Nodup := by
        rw [names, List.map_cons, List.nodup_cons] at hn
        exact hn.2
      have := ih htl h
      rw [findService, List.find?_cons]
      have hbeq : (a.name == s.name) = false := by
        simp [hna]
      rw [hbeq]
      exact this

theorem depsOf_of_mem {r : Registry} {s : Service}
    (hn : (names r).Nodup) (hs : s ∈ r) : depsOf r s.name = s.depends_on := by
  rw [depsOf, findService_of_mem hn hs]

theorem contains_iff_mem {l : List String} {a : String} :
    l.contains a = true ↔ a ∈ l := by
  simp

theorem resolved_deps_mem {r : Registry} (hres : firstUnresolved r = none)
    {s : Service} (hs : s ∈ r) {d : String} (hd : d ∈ s.depends_on) :
    d ∈ names r := by
  rw [firstUnresolved, List.findSome?_eq_none_iff] at hres
  have := hres s hs
  rw [Option.map_eq_none', List.find?_eq_none] at this
  have hd2 := this d hd
  rw [Bool.not_eq_true, Option.isNone_eq_false_iff] at hd2
  exact findService_isSome_iff.mp hd2

theorem resolved_depsOf_mem {r : Registry} (hres : firstUnresolved r = none)
    {n d : String} (hd : d ∈ depsOf r n) : d ∈ names r := by
  rw [depsOf] at hd
  cases hfind : findService r n with
  | none => rw [hfind] at hd; cases hd
  | some s =>
    rw [hfind] at hd
    exact resolved_deps_mem hres (findService_eq_some_mem hfind).1 hd

/-
Closure computation lemmas.
-/

theorem closureAux_mem_of_mem {r : Registry} :
    ∀ (fuel : Nat) (cur : List String) {x : String},
      x ∈ cur → x ∈ closureAux r fuel cur := by
  intro fuel
  induction fuel with
  | zero => intro cur x hx; exact hx
  | succ fuel ih =>
    intro cur x hx
    rw [closureAux]
    by_cases h : (closureStep r cur).isEmpty
    · simp only [h, if_true]; exact hx
    · simp only [h, if_false]
      exact ih _ (List.mem_append_left _ hx)

theorem closureStep_mem {r : Registry} {cur : List String} {d : String} :
    d ∈ closureStep r cur ↔ ((∃ n ∈ cur, d ∈ depsOf r n) ∧ d ∉ cur) := by
  rw [closureStep]
  simp only [List.mem_filter, List.mem_flatten, List.mem_map, Bool.not_eq_eq_eq_not,
    Bool.not_true]
  constructor
  · rintro ⟨⟨l, ⟨n, hn, hl⟩, hd⟩, hnc⟩
    refine ⟨⟨n, hn, hl ▸ hd⟩, ?_⟩
    intro hmem
    rw [← Bool.not_eq_true, contains_iff_mem] at hnc
    exact hnc hmem
  · rintro ⟨⟨n, hn, hd⟩, hnc⟩
    refine ⟨⟨depsOf r n, ⟨n, hn, rfl⟩, hd⟩, ?_⟩
    rw [← Bool.not_eq_true, contains_iff_mem]
    exact hnc

theorem closureStep_empty_closed {r : Registry} {cur : List String}
    (h : (closureStep r cur).isEmpty = true) : DepClosed r cur := by
  intro n hn d hd
  by_contra hdc
  have : d ∈ closureStep r cur := closureStep_mem.mpr ⟨⟨n, hn, hd⟩, hdc⟩
  rw [List.isEmpty_iff] at h
  rw [h] at this
  cases this

theorem closureAux_subset_names {r : Registry} (hres : firstUnresolved r = none) :
    ∀ (fuel : Nat) (cur : List String), (∀ x ∈ cur, x ∈ names r) →
      ∀ x ∈ closureAux r fuel cur, x ∈ names r := by
  intro fuel
  induction fuel with
  | zero => intro cur hcur x hx; exact hcur x hx
  | succ fuel ih =>
    intro cur hcur x hx
    rw [closureAux] at hx
    by_cases h : (closureStep r cur).isEmpty
    · simp only [h, if_true] at hx; exact hcur x hx
    · simp only [h, if_false] at hx
      refine ih _ ?_ x hx
      intro y hy
      rcases List.mem_append.mp hy with hy | hy
      · exact hcur y hy
      · have := List.mem_dedup.mp hy
        obtain ⟨⟨n, _, hdep⟩, _⟩ := closureStep_mem.mp this
        exact resolved_depsOf_mem hres hdep

theorem closureAux_nodup {r : Registry} :
    ∀ (fuel : Nat) (cur : List String), cur.Nodup →
      (closureAux r fuel cur).Nodup := by
  intro fuel
  induction fuel with
  | zero => intro cur h; exact h
  | succ fuel ih =>
    intro cur hcur
    rw [closureAux]
    by_cases h : (closureStep r cur).isEmpty
    · simp only [h, if_true]; exact hcur
    · simp only [h, if_false]
      refine ih _ (List.Nodup.append hcur (List.nodup_dedup _) ?_)
      intro x hx hx2
      have := List.mem_dedup.mp hx2
      exact (closureStep_mem.mp this).2 hx

theorem closureAux_closed {r : Registry} (hres : firstUnresolved r = none) :
    ∀ (fuel : Nat) (cur : List String), (∀ x ∈ cur, x ∈ names r) →
      ((names r).dedup.filter (fun x => !cur.contains x)).length ≤ fuel →
      DepClosed r (closureAux r fuel cur) := by
  intro fuel
  induction fuel with
  | zero =>
    intro cur hcur hm
    have hnil : (names r).dedup.filter (fun x => !cur.contains x) = [] :=
      List.length_eq_zero.mp (Nat.le_zero.mp hm)
    have hsub : ∀ x ∈ names r, x ∈ cur := by
      intro x hx
      by_contra hxc
      have hxf : x ∈ (names r).dedup.filter (fun x => !cur.contains x) := by
        rw [List.mem_filter]
        refine ⟨List.mem_dedup.mpr hx, ?_⟩
        rw [Bool.not_eq_eq_eq_not, Bool.not_true, ← Bool.not_eq_true, contains_iff_mem]
        exact hxc
      rw [hnil] at hxf
      cases hxf
    intro n hn d hd
    exact hsub d (resolved_depsOf_mem hres hd)
  | succ fuel ih =>
    intro cur hcur hm
    rw [closureAux]
    by_cases h : (closureStep r cur).isEmpty
    · simp only [h, if_true]
      exact closureStep_empty_closed h
    · simp only [h, if_false]
      have hne : closureStep r cur ≠ [] := by
        intro hnil; rw [hnil] at h; exact h rfl
      obtain ⟨a, ha⟩ := List.exists_mem_of_ne_nil _ hne
      obtain ⟨⟨n, hn, hdep⟩, hanotc⟩ := closureStep_mem.mp ha
      have hanames : a ∈ names r := resolved_depsOf_mem hres hdep
      have hacur2 : a ∈ cur ++ (closureStep r cur).dedup :=
        List.mem_append_right _ (List.mem_dedup.mpr ha)
      refine ih _ ?_ ?_
      · intro y hy
        rcases List.mem_append.mp hy with hy | hy
        · exact hcur y hy
        · obtain ⟨⟨m, _, hdm⟩, _⟩ := closureStep_mem.mp (List.mem_dedup.mp hy)
          exact resolved_depsOf_mem hres hdm
      · have hlt :
            ((names r).dedup.filter
              (fun x => !(cur ++ (closureStep r cur).dedup).contains x)).length <
            ((names r).dedup.filter (fun x => !cur.contains x)).length := by
          refine filter_length_lt ?_ (List.mem_dedup.mpr hanames) ?_ ?_
          · intro x hx
            rw [Bool.not_eq_eq_eq_not, Bool.not_true, ← Bool.not_eq_true,
              contains_iff_mem] at hx ⊢
            intro hxc
            exact hx (List.mem_append_left _ hxc)
          · rw [Bool.not_eq_eq_eq_not, Bool.not_true, ← Bool.not_eq_true,
              contains_iff_mem]
            exact hanotc
          · have hc : (cur ++ (closureStep r cur).dedup).contains a = true :=
              contains_iff_mem.mpr hacur2
            rw [hc]
            rfl
        exact Nat.le_of_lt_succ (Nat.lt_of_lt_of_le hlt hm)

theorem closureNames_self_mem (r : Registry) (t : String) :
    t ∈ closureNames r t :=
  closureAux_mem_of_mem _ _ (List.mem_singleton.mpr rfl)

theorem closureNames_subset {r : Registry} (hres : firstUnresolved r = none)
    {t : String} (ht : t ∈ names r) :
    ∀ x ∈ closureNames r t, x ∈ names r := by
  refine closureAux_subset_names hres _ _ ?_
  intro x hx
  rw [List.mem_singleton] at hx
  exact hx ▸ ht

theorem closureNames_nodup (r : Registry) (t : String) :
    (closureNames r t).Nodup :=
  closureAux_nodup _ _ (List.nodup_singleton t)

theorem closureNames_closed {r : Registry} (hres : firstUnresolved r = none)
    {t : String} (ht : t ∈ names r) :
    DepClosed r (closureNames r t) := by
  refine closureAux_closed hres _ _ ?_ ?_
  · intro x hx
    rw [List.mem_singleton] at hx
    exact hx ▸ ht
  · calc ((names r).dedup.filter (fun x => !([t].contains x))).length
        ≤ (names r).dedup.length := List.length_filter_le _ _
      _ ≤ (names r).length := (List.dedup_sublist _).length_le
      _ = r.length := List.length_map _ _

/-
Closure-restricted registry lemmas.
-/

theorem closureRegistry_sublist (r : Registry) (t : String) :
    List.Sublist (closureRegistry r t) r :=
  List.filter_sublist r

theorem mem_closureRegistry_iff {r : Registry} {t : String} {s : Service} :
    s ∈ closureRegistry r t ↔ s ∈ r ∧ s.name ∈ closureNames r t := by
  rw [closureRegistry, List.mem_filter, contains_iff_mem]

theorem names_closureRegistry_nodup {r : Registry} (hn : (names r).Nodup)
    (t : String) : (names (closureRegistry r t)).Nodup := by
  have hsub : List.Sublist (names (closureRegistry r t)) (names r) :=
    (closureRegistry_sublist r t).map Service.name
  exact hn.sublist hsub

theorem mem_names_closureRegistry {r : Registry} (hres : firstUnresolved r = none)
    {t : String} (ht : t ∈ names r) {n : String} :
    n ∈ names (closureRegistry r t) ↔ n ∈ closureNames r t := by
  constructor
  · intro h
    obtain ⟨s, hs, hname⟩ := mem_names_iff.mp h
    exact hname ▸ (mem_closureRegistry_iff.mp hs).2
  · intro h
    have hnr : n ∈ names r := closureNames_subset hres ht n h
    obtain ⟨s, hs, hname⟩ := mem_names_iff.mp hnr
    exact mem_names_iff.mpr ⟨s, mem_closureRegistry_iff.mpr ⟨hs, hname ▸ h⟩, hname⟩

theorem closureRegistry_deps_mem {r : Registry} (hn : (names r).Nodup)
    (hres : firstUnresolved r = none) {t : String} (ht : t ∈ names r)
    {s : Service} (hs : s ∈ closureRegistry r t) {d : String}
    (hd : d ∈ s.depends_on) : d ∈ names (closureRegistry r t) := by
  obtain ⟨hsr, hscl⟩ := mem_closureRegistry_iff.mp hs
  have hdeps : depsOf r s.name = s.depends_on := depsOf_of_mem hn hsr
  have hdcl : d ∈ closureNames r t :=
    closureNames_closed hres ht s.name hscl d (hdeps ▸ hd)
  exact (mem_names_closureRegistry hres ht).mpr hdcl

/-
Kahn layering lemmas.
-/


theorem layersAux_succ_pos (fuel : Nat) (remaining : List Service) (placed : List String)
    (h : ¬ (remaining.filter (depsPlaced placed)).isEmpty = true) :
    layersAux (fuel + 1) remaining placed =
      (remaining.filter (depsPlaced placed) ::
        (layersAux fuel (remaining.filter (fun s => !depsPlaced placed s))
          (placed ++ (remaining.filter (depsPlaced placed)).map Service.name)).1,
       (layersAux fuel (remaining.filter (fun s => !depsPlaced placed s))
          (placed ++ (remaining.filter (depsPlaced placed)).map Service.name)).2) := by
  rw [layersAux]
  simp only [h, Bool.false_eq_true, if_false]

theorem layersAux_succ_neg (fuel : Nat) (remaining : List Service) (placed : List String)
    (h : (remaining.filter (depsPlaced placed)).isEmpty = true) :
    layersAux (fuel + 1) remaining placed = ([], remaining) := by
  rw [layersAux]
  simp only [h, if_true]

theorem layersAux_perm :
    ∀ (fuel : Nat) (remaining : List Service) (placed : List String),
      List.Perm
        ((layersAux fuel remaining placed).1.flatten ++ (layersAux fuel remaining placed).2)
        remaining := by
  intro fuel
  induction fuel with
  | zero => intro remaining placed; simp [layersAux]
  | succ fuel ih =>
    intro remaining placed
    by_cases h : (remaining.filter (depsPlaced placed)).isEmpty = true
    · rw [layersAux_succ_neg fuel remaining placed h]
      simp
    · rw [layersAux_succ_pos fuel remaining placed h]
      simp only [List.flatten_cons, List.append_assoc]
      have hperm := ih (remaining.filter (fun s => !depsPlaced placed s))
        (placed ++ (remaining.filter (depsPlaced placed)).map Service.name)
      have h2 := List.Perm.append_left (remaining.filter (depsPlaced placed)) hperm
      exact h2.trans (List.filter_append_perm _ _)

theorem layersAux_layer_sublist :
    ∀ (fuel : Nat) (remaining : List Service) (placed : List String) (l : List Service),
      l ∈ (layersAux fuel remaining placed).1 → List.Sublist l remaining := by
  intro fuel
  induction fuel with
  | zero => intro remaining placed l hl; cases hl
  | succ fuel ih =>
    intro remaining placed l hl
    by_cases h : (remaining.filter (depsPlaced placed)).isEmpty = true
    · rw [layersAux_succ_neg fuel remaining placed h] at hl
      cases hl
    · rw [layersAux_succ_pos fuel remaining placed h] at hl
      rcases List.mem_cons.mp hl with hl | hl
      · exact hl ▸ List.filter_sublist remaining
      · exact (ih _ _ l hl).trans (List.filter_sublist remaining)

theorem layersAux_topo :
    ∀ (fuel : Nat) (remaining : List Service) (placed : List String)
      (A : List (List Service)) (layer : List Service) (B : List (List Service)),
      (layersAux fuel remaining placed).1 = A ++ layer :: B →
      ∀ s ∈ layer, ∀ d ∈ s.depends_on, d ∈ placed ++ flatNames A := by
  intro fuel
  induction fuel with
  | zero =>
    intro remaining placed A layer B hsplit
    rw [layersAux] at hsplit
    cases A with
    | nil => cases hsplit
    | cons a A => cases hsplit
  | succ fuel ih =>
    intro remaining placed A layer B hsplit s hs d hd
    by_cases h : (remaining.filter (depsPlaced placed)).isEmpty = true
    · rw [layersAux_succ_neg fuel remaining placed h] at hsplit
      cases A with
      | nil => cases hsplit
      | cons a A => cases hsplit
    · rw [layersAux_succ_pos fuel remaining placed h] at hsplit
      simp only at hsplit
      cases A with
      | nil =>
        rw [List.nil_append] at hsplit
        have hlayer : layer = remaining.filter (depsPlaced placed) :=
          (List.cons.injEq _ _ _ _ ▸ hsplit).1.symm
        rw [hlayer] at hs
        have hready : depsPlaced placed s = true := List.of_mem_filter hs
        rw [depsPlaced, List.all_eq_true] at hready
        have := hready d hd
        rw [contains_iff_mem] at this
        simp only [flatNames, layerNames, List.map_nil, List.flatten_nil, List.append_nil]
        exact this
      | cons a A =>
        rw [List.cons_append] at hsplit
        have h1 : a = remaining.filter (depsPlaced placed) :=
          ((List.cons.injEq _ _ _ _ ▸ hsplit).1).symm
        have h2 : (layersAux fuel (remaining.filter (fun s => !depsPlaced placed s))
            (placed ++ (remaining.filter (depsPlaced placed)).map Service.name)).1 =
            A ++ layer :: B :=
          (List.cons.injEq _ _ _ _ ▸ hsplit).2
        have := ih _ _ A layer B h2 s hs d hd
        rw [h1]
        simp only [flatNames, layerNames, List.map_cons, List.flatten_cons]
        rcases List.mem_append.mp this with hin | hin
        · rcases List.mem_append.mp hin with hin | hin
          · exact List.mem_append_left _ hin
          · exact List.mem_append_right _ (List.mem_append_left _ hin)
        · refine List.mem_append_right _ (List.mem_append_right _ ?_)
          simp only [flatNames, layerNames] at hin
          exact hin

theorem layersAux_complete :
    ∀ (fuel : Nat) (remaining : List Service) (placed : List String) (pos : String → Nat),
      remaining.length ≤ fuel →
      (∀ s ∈ remaining, ∀ d ∈ s.depends_on, d ∈ placed ∨ d ∈ names remaining) →
      (∀ s ∈ remaining, ∀ d ∈ s.depends_on, d ∈ names remaining → pos d < pos s.name) →
      (layersAux fuel remaining placed).2 = [] := by
  intro fuel
  induction fuel with
  | zero =>
    intro remaining placed pos hf _ _
    have : remaining = [] := List.length_eq_zero.mp (Nat.le_zero.mp hf)
    simp [layersAux, this]
  | succ fuel ih =>
    intro remaining placed pos hf hclosed hrank
    by_cases hrem : remaining = []
    · subst hrem
      rw [layersAux_succ_neg fuel [] placed (by simp)]
    · have hready : remaining.filter (depsPlaced placed) ≠ [] := by
        obtain ⟨smin, hmin_mem, hmin⟩ :=
          exists_min_nat (fun s => pos s.name) remaining hrem
        intro hnil
        rw [List.filter_eq_nil_iff] at hnil
        refine hnil smin hmin_mem ?_
        rw [depsPlaced, List.all_eq_true]
        intro d hd
        rw [contains_iff_mem]
        rcases hclosed smin hmin_mem d hd with hin | hin
        · exact hin
        · exfalso
          obtain ⟨s2, hs2, hs2n⟩ := mem_names_iff.mp hin
          have h1 : pos d < pos smin.name := hrank smin hmin_mem d hd hin
          have h2 : pos smin.name ≤ pos s2.name := hmin s2 hs2
          rw [hs2n] at h2
          exact Nat.not_lt.mpr h2 h1
      have hne : ¬ (remaining.filter (depsPlaced placed)).isEmpty = true := by
        rw [List.isEmpty_iff]
        exact hready
      rw [layersAux_succ_pos fuel remaining placed hne]
      refine ih _ _ pos ?_ ?_ ?_
      · have := filter_not_length_lt (p := depsPlaced placed) (l := remaining) hready
        exact Nat.le_of_lt_succ (Nat.lt_of_lt_of_le this hf)
      · intro s hs d hd
        have hsrem : s ∈ remaining := List.mem_of_mem_filter hs
        rcases hclosed s hsrem d hd with hin | hin
        · exact Or.inl (List.mem_append_left _ hin)
        · obtain ⟨s2, hs2, hs2n⟩ := mem_names_iff.mp hin
          by_cases hp : depsPlaced placed s2 = true
          · refine Or.inl (List.mem_append_right _ ?_)
            have : s2 ∈ remaining.filter (depsPlaced placed) :=
              List.mem_filter.mpr ⟨hs2, hp⟩
            exact hs2n ▸ List.mem_map_of_mem Service.name this
          · refine Or.inr ?_
            refine mem_names_iff.mpr ⟨s2, List.mem_filter.mpr ⟨hs2, ?_⟩, hs2n⟩
            rw [Bool.not_eq_true] at hp
            rw [hp]
            rfl
      · intro s hs d hd hin
        have hsrem : s ∈ remaining := List.mem_of_mem_filter hs
        have hin2 : d ∈ names remaining := by
          obtain ⟨s2, hs2, hs2n⟩ := mem_names_iff.mp hin
          exact mem_names_iff.mpr ⟨s2, List.mem_of_mem_filter hs2, hs2n⟩
        exact hrank s hsrem d hd hin2

theorem layersAux_leftover_blocked :
    ∀ (fuel : Nat) (remaining : List Service) (placed : List String),
      remaining.length ≤ fuel →
      ∀ s ∈ (layersAux fuel remaining placed).2,
        ∃ d ∈ s.depends_on,
          d ∉ placed ++ flatNames (layersAux fuel remaining placed).1 := by
  intro fuel
  induction fuel with
  | zero =>
    intro remaining placed hf s hs
    have hnil : remaining = [] := List.length_eq_zero.mp (Nat.le_zero.mp hf)
    rw [layersAux] at hs
    rw [hnil] at hs
    cases hs
  | succ fuel ih =>
    intro remaining placed hf s hs
    by_cases h : (remaining.filter (depsPlaced placed)).isEmpty = true
    · rw [layersAux_succ_neg fuel remaining placed h] at hs ⊢
      have hall : ∀ a ∈ remaining, ¬ depsPlaced placed a = true := by
        rw [List.isEmpty_iff, List.filter_eq_nil_iff] at h
        exact h
      have := hall s hs
      rw [depsPlaced, List.all_eq_true] at this
      push_neg at this
      obtain ⟨d, hd, hdc⟩ := this
      refine ⟨d, hd, ?_⟩
      simp only [flatNames, layerNames, List.map_nil, List.flatten_nil, List.append_nil]
      intro hmem
      exact hdc (contains_iff_mem.mpr hmem)
    · rw [layersAux_succ_pos fuel remaining placed h] at hs ⊢
      have hready : remaining.filter (depsPlaced placed) ≠ [] := by
        intro hnil
        rw [List.isEmpty_iff] at h
        exact h hnil
      have hlen : (remaining.filter (fun s => !depsPlaced placed s)).length ≤ fuel := by
        have := filter_not_length_lt (p := depsPlaced placed) (l := remaining) hready
        exact Nat.le_of_lt_succ (Nat.lt_of_lt_of_le this hf)
      obtain ⟨d, hd, hdn⟩ := ih _ _ hlen s hs
      refine ⟨d, hd, ?_⟩
      intro hmem
      refine hdn ?_
      simp only [flatNames, layerNames, List.map_cons, List.flatten_cons] at hmem ⊢
      rcases List.mem_append.mp hmem with hin | hin
      · exact List.mem_append_left _ (List.mem_append_left _ hin)
      · rcases List.mem_append.mp hin with hin | hin
        · exact List.mem_append_left _ (List.mem_append_right _ hin)
        · exact List.mem_append_right _ hin

/-
Dependency chain and cycle lemmas.
-/

theorem isChainB_cons_cons {r : Registry} {a b : String} {rest : List String} :
    isChainB r (a :: b :: rest) = true ↔
      dependsOnB r a b = true ∧ isChainB r (b :: rest) = true := by
  rw [isChainB, Bool.and_eq_true]

theorem isChainB_of_cons {r : Registry} {a : String} {l : List String}
    (h : isChainB r (a :: l) = true) : isChainB r l = true := by
  cases l with
  | nil => rfl
  | cons b rest => exact (isChainB_cons_cons.mp h).2

theorem getLastD_cons_cons (a b : String) (rest : List String) :
    (a :: b :: rest).getLastD "" = (b :: rest).getLastD "" := by
  rw [List.getLastD_eq_getLast?, List.getLastD_eq_getLast?, List.getLast?_cons_cons]

theorem chain_mem_succ {r : Registry} :
    ∀ (l : List String), isChainB r l = true →
      ∀ x ∈ l, x = l.getLastD "" ∨ ∃ y ∈ l, dependsOnB r x y = true := by
  intro l
  induction l with
  | nil => intro _ x hx; cases hx
  | cons a tl ih =>
    intro hchain x hx
    cases tl with
    | nil =>
      rw [List.mem_singleton] at hx
      left
      rw [hx]
      rfl
    | cons b rest =>
      obtain ⟨hab, htl⟩ := isChainB_cons_cons.mp hchain
      rcases List.mem_cons.mp hx with hxa | hxtl
      · right
        exact ⟨b, List.mem_cons_of_mem _ (List.mem_cons_self _ _), hxa ▸ hab⟩
      · rcases ih htl x hxtl with hlast | ⟨y, hy, hxy⟩
        · left
          rw [hlast, getLastD_cons_cons]
        · right
          exact ⟨y, List.mem_cons_of_mem _ hy, hxy⟩

theorem cycle_succ {r : Registry} {c : List String} (hc : isCycleB r c = true) :
    ∀ x ∈ c, ∃ y ∈ c, dependsOnB r x y = true := by
  cases c with
  | nil => cases hc
  | cons a tl =>
    rw [isCycleB, Bool.and_eq_true] at hc
    obtain ⟨hchain, hlast⟩ := hc
    intro x hx
    rcases chain_mem_succ (a :: tl) hchain x hx with heq | hsucc
    · exact ⟨a, List.mem_cons_self _ _, heq ▸ hlast⟩
    · exact hsucc

theorem dependsOnB_mem_names {r : Registry} {x y : String}
    (h : dependsOnB r x y = true) : x ∈ names r := by
  rw [dependsOnB, depsOf] at h
  cases hfind : findService r x with
  | none =>
    rw [hfind] at h
    cases h
  | some s =>
    obtain ⟨hs, hname⟩ := findService_eq_some_mem hfind
    exact mem_names_iff.mpr ⟨s, hs, hname⟩

theorem cycle_mem_names {r : Registry} {c : List String} (hc : isCycleB r c = true) :
    ∀ x ∈ c, x ∈ names r := by
  intro x hx
  obtain ⟨y, _, hxy⟩ := cycle_succ hc x hx
  exact dependsOnB_mem_names hxy

theorem dependsOnB_of_service {r : Registry} (hn : (names r).Nodup)
    {s : Service} (hs : s ∈ r) {y : String}
    (h : dependsOnB r s.name y = true) : y ∈ s.depends_on := by
  rw [dependsOnB, depsOf_of_mem hn hs, contains_iff_mem] at h
  exact h

theorem layersAux_cycle_stuck {r : Registry} (hn : (names r).Nodup)
    {c : List String} (hc : isCycleB r c = true) :
    ∀ (fuel : Nat) (remaining : List Service) (placed : List String),
      List.Sublist remaining r →
      (∀ x ∈ c, x ∈ names remaining) →
      (∀ x ∈ c, x ∉ placed) →
      ∀ x ∈ c, x ∈ names (layersAux fuel remaining placed).2 := by
  intro fuel
  induction fuel with
  | zero =>
    intro remaining placed _ hin _ x hx
    rw [layersAux]
    exact hin x hx
  | succ fuel ih =>
    intro remaining placed hsub hin hpl x hx
    have hnotready : ∀ z ∈ c, z ∉ names (remaining.filter (depsPlaced placed)) := by
      intro z hz hzready
      obtain ⟨s2, hs2, hs2n⟩ := mem_names_iff.mp hzready
      have hs2rem : s2 ∈ remaining := List.mem_of_mem_filter hs2
      have hs2r : s2 ∈ r := hsub.subset hs2rem
      obtain ⟨y, hy, hzy⟩ := cycle_succ hc z hz
      have hydep : y ∈ s2.depends_on := dependsOnB_of_service hn hs2r (hs2n ▸ hzy)
      have hready : depsPlaced placed s2 = true := List.of_mem_filter hs2
      rw [depsPlaced, List.all_eq_true] at hready
      have := hready y hydep
      rw [contains_iff_mem] at this
      exact hpl y hy this
    by_cases h : (remaining.filter (depsPlaced placed)).isEmpty = true
    · rw [layersAux_succ_neg fuel remaining placed h]
      exact hin x hx
    · rw [layersAux_succ_pos fuel remaining placed h]
      refine ih _ _ ((List.filter_sublist remaining).trans hsub) ?_ ?_ x hx
      · intro z hz
        obtain ⟨s2, hs2, hs2n⟩ := mem_names_iff.mp (hin z hz)
        have : s2 ∈ remaining.filter (fun s => !depsPlaced placed s) := by
          rw [List.mem_filter]
          refine ⟨hs2, ?_⟩
          by_cases hp : depsPlaced placed s2 = true
          · exfalso
            exact hnotready z hz
              (mem_names_iff.mpr ⟨s2, List.mem_filter.mpr ⟨hs2, hp⟩, hs2n⟩)
          · rw [Bool.not_eq_true] at hp
            rw [hp]
            rfl
        exact mem_names_iff.mpr ⟨s2, this, hs2n⟩
      · intro z hz hzpl
        rcases List.mem_append.mp hzpl with hzpl | hzpl
        · exact hpl z hz hzpl
        · exact hnotready z hz hzpl

/-
Cycle extraction lemmas.
-/

theorem dropUntil_spec {n : String} :
    ∀ (path : List String), n ∈ path →
      (∃ P, path = P ++ dropUntil n path) ∧ (dropUntil n path).head? = some n := by
  intro path
  induction path with
  | nil => intro h; cases h
  | cons x xs ih =>
    intro hmem
    rw [dropUntil]
    by_cases hx : (x == n) = true
    · simp only [hx, if_true]
      refine ⟨⟨[], by rw [List.nil_append]⟩, ?_⟩
      rw [List.head?_cons]
      rw [beq_iff_eq] at hx
      rw [hx]
    · simp only [hx, Bool.false_eq_true, if_false]
      have hn : n ∈ xs := by
        rcases List.mem_cons.mp hmem with h | h
        · exfalso
          rw [beq_iff_eq] at hx
          exact hx h.symm
        · exact h
      obtain ⟨⟨P, hP⟩, hhead⟩ := ih hn
      exact ⟨⟨x :: P, by rw [List.cons_append, ← hP]⟩, hhead⟩

theorem isChainB_append_right {r : Registry} :
    ∀ (A B : List String), isChainB r (A ++ B) = true → isChainB r B = true := by
  intro A
  induction A with
  | nil => intro B h; exact h
  | cons a A ih =>
    intro B h
    rw [List.cons_append] at h
    exact ih B (isChainB_of_cons h)

theorem isChainB_snoc_iff {r : Registry} :
    ∀ (A : List String) (x : String),
      isChainB r (A ++ [x]) = true ↔
        (isChainB r A = true ∧
          (A = [] ∨ dependsOnB r (A.getLastD "") x = true)) := by
  intro A
  induction A with
  | nil =>
    intro x
    simp [isChainB]
  | cons a A ih =>
    intro x
    cases A with
    | nil =>
      simp only [List.nil_append, List.cons_append]
      rw [isChainB_cons_cons]
      constructor
      · rintro ⟨hab, _⟩
        exact ⟨rfl, Or.inr (by rw [List.getLastD_eq_getLast?]; exact hab)⟩
      · rintro ⟨_, h⟩
        rcases h with h | h
        · cases h
        · rw [List.getLastD_eq_getLast?] at h
          exact ⟨h, rfl⟩
    | cons b A2 =>
      rw [List.cons_append, List.cons_append, isChainB_cons_cons]
      rw [← List.cons_append] at *
      rw [ih x, isChainB_cons_cons]
      constructor
      · rintro ⟨hab, hchain, hlast⟩
        rcases hlast with hnil | hlast
        · cases hnil
        · refine ⟨⟨hab, hchain⟩, Or.inr ?_⟩
          rw [getLastD_cons_cons]
          exact hlast
      · rintro ⟨⟨hab, hchain⟩, hlast⟩
        rcases hlast with hnil | hlast
        · cases hnil
        · rw [getLastD_cons_cons] at hlast
          exact ⟨hab, hchain, Or.inr hlast⟩

theorem depInSet_spec {r : Registry} {keep : List String} {n d : String}
    (h : depInSet r keep n = some d) :
    dependsOnB r n d = true ∧ d ∈ keep := by
  constructor
  · rw [dependsOnB, contains_iff_mem]
    exact List.mem_of_find?_eq_some h
  · have := List.find?_some h
    rw [contains_iff_mem] at this
    exact this

theorem walkCycle_cycle {r : Registry} {keep : List String}
    (hkeep : ∀ n ∈ keep, ∃ d, depInSet r keep n = some d) :
    ∀ (fuel : Nat) (path : List String) (n : String),
      n ∈ keep → (∀ x ∈ path, x ∈ keep) → path.Nodup →
      isChainB r (path ++ [n]) = true →
      keep.length + 1 ≤ fuel + path.length →
      isCycleB r (walkCycle r keep fuel path n) = true := by
  intro fuel
  induction fuel with
  | zero =>
    intro path n hn hpk hnd _ hlen
    exfalso
    have hsp : List.Subperm path keep := hnd.subperm hpk
    have := hsp.length_le
    omega
  | succ fuel ih =>
    intro path n hn hpk hnd hchain hlen
    rw [walkCycle]
    by_cases hmem : path.contains n = true
    · simp only [hmem, if_true]
      rw [contains_iff_mem] at hmem
      obtain ⟨⟨P, hP⟩, hhead⟩ := dropUntil_spec path hmem
      have hchainS : isChainB r (dropUntil n path ++ [n]) = true := by
        refine isChainB_append_right P _ ?_
        rw [← List.append_assoc, ← hP]
        exact hchain
      cases hS : dropUntil n path with
      | nil => rw [hS] at hhead; cases hhead
      | cons s0 tail =>
        rw [hS] at hhead hchainS
        rw [List.head?_cons] at hhead
        have hs0 : s0 = n := Option.some.inj hhead
        obtain ⟨hchain2, hlast⟩ := (isChainB_snoc_iff _ _).mp hchainS
        rcases hlast with hnil | hlast
        · cases hnil
        · rw [isCycleB, Bool.and_eq_true]
          exact ⟨hchain2, hs0 ▸ hlast⟩
    · simp only [hmem, Bool.false_eq_true, if_false]
      obtain ⟨d, hd⟩ := hkeep n hn
      rw [hd]
      obtain ⟨hedge, hdk⟩ := depInSet_spec hd
      refine ih (path ++ [n]) d hdk ?_ ?_ ?_ ?_
      · intro x hx
        rcases List.mem_append.mp hx with hx | hx
        · exact hpk x hx
        · rw [List.mem_singleton] at hx
          exact hx ▸ hn
      · rw [List.nodup_append]
        refine ⟨hnd, List.nodup_singleton n, ?_⟩
        intro x hx hx2
        rw [List.mem_singleton] at hx2
        rw [← contains_iff_mem] at hx
        rw [hx2] at hx
        exact hmem hx
      · rw [isChainB_snoc_iff]
        refine ⟨hchain, Or.inr ?_⟩
        have : (path ++ [n]).getLastD "" = n := by
          rw [List.getLastD_eq_getLast?, List.getLast?_concat]
          rfl
        rw [this]
        exact hedge
      · rw [List.length_append, List.length_singleton]
        omega

/-
Loader validation lemmas.
-/

theorem load_all_eq_ok {r r2 : Registry} (h : load_all r = .ok r2) :
    r2 = r ∧ (names r).Nodup ∧ firstUnresolved r = none ∧
      (layersAux r.length r []).2 = [] := by
  rw [load_all] at h
  by_cases hnd : (names r).Nodup
  · rw [if_pos hnd] at h
    cases hfu : firstUnresolved r with
    | some p =>
      obtain ⟨d, ref⟩ := p
      rw [hfu] at h
      simp at h
    | none =>
      rw [hfu] at h
      simp only at h
      by_cases hemp : (layersAux r.length r []).2.isEmpty = true
      · simp only [hemp, if_true] at h
        have := Except.ok.inj h
        rw [List.isEmpty_iff] at hemp
        exact ⟨this.symm, hnd, rfl, hemp⟩
      · simp only [hemp, Bool.false_eq_true, if_false] at h
        simp at h
  · rw [if_neg hnd] at h
    simp at h

theorem loadOk_spec {r : Registry} (h : loadOk r = true) :
    load_all r = .ok r ∧ (names r).Nodup ∧ firstUnresolved r = none ∧
      (layersAux r.length r []).2 = [] := by
  rw [loadOk] at h
  cases hla : load_all r with
  | error e => rw [hla] at h; cases h
  | ok r2 =>
    obtain ⟨h1, h2, h3, h4⟩ := load_all_eq_ok hla
    exact ⟨congrArg Except.ok h1, h2, h3, h4⟩

theorem load_all_cyclic_error {r : Registry} (hnd : (names r).Nodup)
    (hres : firstUnresolved r = none)
    (hlo : (layersAux r.length r []).2 ≠ []) :
    load_all r =
      .error (.cyclicDependencyError (findCycle r (layersAux r.length r []).2)) := by
  rw [load_all, if_pos hnd, hres]
  simp only
  have hemp : (layersAux r.length r []).2.isEmpty = false := by
    cases hval : (layersAux r.length r []).2 with
    | nil => exact absurd hval hlo
    | cons a tl => rfl
  rw [hemp]
  simp

theorem leftover_mem_registry {r : Registry} {s : Service}
    (hs : s ∈ (layersAux r.length r []).2) : s ∈ r := by
  have hperm := layersAux_perm r.length r []
  exact hperm.subset (List.mem_append_right _ hs)

theorem leftover_dep_in_leftover {r : Registry} (hnd : (names r).Nodup)
    (hres : firstUnresolved r = none) :
    ∀ n ∈ names (layersAux r.length r []).2,
      ∃ d, depInSet r (names (layersAux r.length r []).2) n = some d := by
  intro n hn
  obtain ⟨s, hs, hsn⟩ := mem_names_iff.mp hn
  obtain ⟨d, hd, hdn⟩ :=
    layersAux_leftover_blocked r.length r [] (Nat.le_refl _) s hs
  have hsr : s ∈ r := leftover_mem_registry hs
  have hdr : d ∈ names r := resolved_deps_mem hres hsr hd
  have hdlo : d ∈ names (layersAux r.length r []).2 := by
    have hperm := (layersAux_perm r.length r []).map Service.name
    have hdin : d ∈ (((layersAux r.length r []).1.flatten ++
        (layersAux r.length r []).2).map Service.name) := hperm.mem_iff.mpr hdr
    rw [List.map_append] at hdin
    rcases List.mem_append.mp hdin with hin | hin
    · exfalso
      refine hdn ?_
      rw [List.nil_append, flatNames, layerNames, ← List.map_flatten]
      exact hin
    · exact hin
  have hdeps : depsOf r n = s.depends_on := hsn ▸ depsOf_of_mem hnd hsr
  have : ∃ x, x ∈ depsOf r n ∧
      (names (layersAux r.length r []).2).contains x = true := by
    exact ⟨d, hdeps ▸ hd, contains_iff_mem.mpr hdlo⟩
  rw [depInSet]
  obtain ⟨v, hv⟩ := Option.isSome_iff_exists.mp (List.find?_isSome.mpr this)
  exact ⟨v, hv⟩

theorem findCycle_cycle_of {r : Registry} {lo : List Service} (hlo : lo ≠ [])
    (hkeep : ∀ n ∈ lo.map Service.name,
      ∃ d, depInSet r (lo.map Service.name) n = some d) :
    isCycleB r (findCycle r lo) = true := by
  cases lo with
  | nil => exact absurd rfl hlo
  | cons s rest =>
    rw [findCycle]
    refine walkCycle_cycle hkeep _ [] s.name ?_ ?_ ?_ ?_ ?_
    · exact List.mem_map_of_mem Service.name (List.mem_cons_self _ _)
    · intro x hx; cases hx
    · exact List.nodup_nil
    · rfl
    · simp

/-
Index and ranking lemmas.
-/

theorem idxOf_lt_length {n : String} :
    ∀ {l : List String}, n ∈ l → idxOf n l < l.length := by
  intro l
  induction l with
  | nil => intro h; cases h
  | cons x xs ih =>
    intro h
    rw [idxOf]
    by_cases hx : (x == n) = true
    · rw [hx]
      simp
    · simp only [hx, Bool.false_eq_true, if_false, List.length_cons]
      have hn : n ∈ xs := by
        rcases List.mem_cons.mp h with h | h
        · exfalso; rw [beq_iff_eq] at hx; exact hx h.symm
        · exact h
      exact Nat.succ_lt_succ (ih hn)

theorem idxOf_append_left {n : String} :
    ∀ {A : List String} (B : List String), n ∈ A →
      idxOf n (A ++ B) = idxOf n A := by
  intro A
  induction A with
  | nil => intro B h; cases h
  | cons x xs ih =>
    intro B h
    rw [List.cons_append, idxOf, idxOf]
    by_cases hx : (x == n) = true
    · rw [hx]
      simp
    · simp only [hx, Bool.false_eq_true, if_false]
      have hn : n ∈ xs := by
        rcases List.mem_cons.mp h with h | h
        · exfalso; rw [beq_iff_eq] at hx; exact hx h.symm
        · exact h
      rw [ih B hn]

theorem idxOf_append_right {n : String} :
    ∀ {A : List String} (B : List String), n ∉ A →
      idxOf n (A ++ B) = A.length + idxOf n B := by
  intro A
  induction A with
  | nil => intro B _; simp
  | cons x xs ih =>
    intro B h
    rw [List.cons_append, idxOf]
    have hx : (x == n) = false := by
      rw [beq_eq_false_iff_ne]
      intro heq
      exact h (heq ▸ List.mem_cons_self _ _)
    simp only [hx, Bool.false_eq_true, if_false, List.length_cons]
    rw [ih B (fun hn => h (List.mem_cons_of_mem _ hn))]
    omega

theorem idxOf_lt_of_split {A B : List String} {a b : String}
    (ha : a ∈ A) (hbA : b ∉ A) :
    idxOf a (A ++ B) < idxOf b (A ++ B) := by
  rw [idxOf_append_left B ha, idxOf_append_right B hbA]
  exact Nat.lt_of_lt_of_le (idxOf_lt_length ha) (Nat.le_add_right _ _)

theorem ranking_of_layers {r : Registry} (hnd : (names r).Nodup)
    (hlo : (layersAux r.length r []).2 = []) :
    ∀ s ∈ r, ∀ d ∈ s.depends_on,
      idxOf d (flatNames (layersAux r.length r []).1) <
        idxOf s.name (flatNames (layersAux r.length r []).1) := by
  intro s hs d hd
  have hperm : List.Perm (layersAux r.length r []).1.flatten r := by
    have := layersAux_perm r.length r []
    rw [hlo, List.append_nil] at this
    exact this
  have hfn : flatNames (layersAux r.length r []).1 =
      ((layersAux r.length r []).1.flatten).map Service.name := by
    rw [flatNames, layerNames, List.map_flatten]
  have hnodupf : (flatNames (layersAux r.length r []).1).Nodup := by
    rw [hfn]
    exact (hperm.map Service.name).nodup_iff.mpr hnd
  have hsf : s ∈ (layersAux r.length r []).1.flatten := hperm.mem_iff.mpr hs
  obtain ⟨layer, hlayer, hslayer⟩ := List.mem_flatten.mp hsf
  obtain ⟨A, B, hAB⟩ := List.append_of_mem hlayer
  have hdA : d ∈ flatNames A :=
    layersAux_topo r.length r [] A layer B hAB s hslayer d hd
  have hsplit : flatNames (layersAux r.length r []).1 =
      flatNames A ++ (layer.map Service.name ++ flatNames B) := by
    rw [hAB, flatNames, layerNames, List.map_append, List.map_cons,
      List.flatten_append, List.flatten_cons, flatNames, flatNames, layerNames,
      layerNames]
  have hsin : s.name ∈ layer.map Service.name ++ flatNames B :=
    List.mem_append_left _ (List.mem_map_of_mem Service.name hslayer)
  have hsnotA : s.name ∉ flatNames A := by
    intro hmem
    rw [hsplit] at hnodupf
    rw [List.nodup_append] at hnodupf
    exact hnodupf.2.2 hmem hsin
  rw [hsplit]
  exact idxOf_lt_of_split hdA hsnotA

theorem resolveLayers_leftover_nil {r : Registry} (hok : loadOk r = true)
    {t : String} (ht : t ∈ names r) :
    (resolveLayers r t).2 = [] := by
  obtain ⟨_, hnd, hres, hlo⟩ := loadOk_spec hok
  rw [resolveLayers]
  refine layersAux_complete _ _ _
    (fun n => idxOf n (flatNames (layersAux r.length r []).1)) (Nat.le_refl _) ?_ ?_
  · intro s hs d hd
    exact Or.inr (closureRegistry_deps_mem hnd hres ht hs hd)
  · intro s hs d hd _
    exact ranking_of_layers hnd hlo s (mem_closureRegistry_iff.mp hs).1 d hd

/-
Engine state-map lemmas.
-/

theorem all_congr_of_mem {α : Type} {p q : α → Bool} :
    ∀ {l : List α}, (∀ x ∈ l, p x = q x) → l.all p = l.all q := by
  intro l
  induction l with
  | nil => intro _; rfl
  | cons a tl ih =>
    intro h
    rw [List.all_cons, List.all_cons, h a (List.mem_cons_self _ _),
      ih (fun x hx => h x (List.mem_cons_of_mem _ hx))]

theorem stepService_terminal (spawnOk : String → Bool) (st : StateMap) (s : Service) :
    stepService spawnOk st s = ServiceState.Ready ∨
    stepService spawnOk st s = ServiceState.Failed ∨
    stepService spawnOk st s = ServiceState.Skipped := by
  rw [stepService]
  by_cases h : depsAllReady st s = true
  · rw [if_pos h, launchOutcome]
    cases s.kind with
    | target => exact Or.inl rfl
    | process =>
      by_cases hsp : spawnOk s.name = true
      · rw [if_pos hsp]; exact Or.inl rfl
      · rw [if_neg hsp]; exact Or.inr (Or.inl rfl)
  · rw [if_neg h]
    exact Or.inr (Or.inr rfl)

theorem depsAllReady_congr {st1 st2 : StateMap} {s : Service}
    (h : ∀ d ∈ s.depends_on, lookupState st1 d = lookupState st2 d) :
    depsAllReady st1 s = depsAllReady st2 s := by
  rw [depsAllReady, depsAllReady]
  refine all_congr_of_mem ?_
  intro d hd
  rw [h d hd]

theorem stepService_congr (spawnOk : String → Bool) {st1 st2 : StateMap} {s : Service}
    (h : ∀ d ∈ s.depends_on, lookupState st1 d = lookupState st2 d) :
    stepService spawnOk st1 s = stepService spawnOk st2 s := by
  rw [stepService, stepService, depsAllReady_congr h]

theorem isLaunched_congr {st1 st2 : StateMap} {s : Service}
    (h : ∀ d ∈ s.depends_on, lookupState st1 d = lookupState st2 d) :
    isLaunched st1 s = isLaunched st2 s := by
  rw [isLaunched, isLaunched, depsAllReady_congr h]

theorem lookupState_append_left {st X : StateMap} {n : String}
    (h : n ∈ st.map Prod.fst) : lookupState (st ++ X) n = lookupState st n := by
  rw [lookupState, lookupState, List.find?_append]
  obtain ⟨p, hp, hpn⟩ := List.mem_map.mp h
  have hsome : (st.find? (fun q => q.1 == n)).isSome := by
    rw [List.find?_isSome]
    exact ⟨p, hp, by rw [hpn]; exact beq_self_eq_true n⟩
  rw [Option.or_of_isSome hsome]

theorem lookupState_append_right {st X : StateMap} {n : String}
    (h : n ∉ st.map Prod.fst) : lookupState (st ++ X) n = lookupState X n := by
  rw [lookupState, lookupState, List.find?_append]
  have hnone : st.find? (fun q => q.1 == n) = none := by
    rw [List.find?_eq_none]
    intro p hp hpn
    rw [beq_iff_eq] at hpn
    exact h (List.mem_map.mpr ⟨p, hp, hpn⟩)
  rw [hnone, Option.none_or]

theorem lookupState_layer {layer : List Service}
    (hnd : (layer.map Service.name).Nodup) {s : Service} (hs : s ∈ layer)
    (f : Service → ServiceState) :
    lookupState (layer.map (fun s2 => (s2.name, f s2))) s.name = some (f s) := by
  induction layer with
  | nil => cases hs
  | cons a tl ih =>
    rw [List.map_cons, lookupState, List.find?_cons]
    rcases List.mem_cons.mp hs with heq | htl
    · subst heq
      simp
    · have hne : (a.name == s.name) = false := by
        rw [beq_eq_false_iff_ne]
        intro heq
        rw [List.map_cons, List.nodup_cons] at hnd
        exact hnd.1 (heq ▸ List.mem_map_of_mem Service.name htl)
      rw [hne]
      have htlnd : (tl.map Service.name).Nodup := by
        rw [List.map_cons, List.nodup_cons] at hnd
        exact hnd.2
      have := ih htlnd htl
      rw [lookupState] at this
      exact this

theorem mem_flatNames {LL : List (List Service)} {layer : List Service} {s : Service}
    (hlayer : layer ∈ LL) (hs : s ∈ layer) : s.name ∈ flatNames LL := by
  rw [flatNames, layerNames]
  exact List.mem_flatten.mpr
    ⟨layer.map Service.name, List.mem_map_of_mem _ hlayer,
     List.mem_map_of_mem Service.name hs⟩

theorem service_eq_of_name_eq {layer : List Service}
    (hnd : (layer.map Service.name).Nodup) {s s2 : Service}
    (hs : s ∈ layer) (hs2 : s2 ∈ layer) (h : s2.name = s.name) : s2 = s :=
  List.inj_on_of_nodup_map hnd hs2 hs h

theorem runLayers_structure (spawnOk : String → Bool) :
    ∀ (LL : List (List Service)) (st0 : StateMap) (ln0 : List String),
      ∃ Δ ΔL,
        runLayers spawnOk LL st0 ln0 = (st0 ++ Δ, ln0 ++ ΔL) ∧
        Δ.map Prod.fst = flatNames LL ∧
        (∀ x ∈ ΔL, x ∈ flatNames LL) ∧
        (∀ p ∈ Δ, p.2 = ServiceState.Ready ∨ p.2 = ServiceState.Failed ∨
          p.2 = ServiceState.Skipped) := by
  intro LL
  induction LL with
  | nil =>
    intro st0 ln0
    refine ⟨[], [], ?_, rfl, ?_, ?_⟩
    · rw [runLayers, List.append_nil, List.append_nil]
    · intro x hx; cases hx
    · intro p hp; cases hp
  | cons layer0 rest ih =>
    intro st0 ln0
    obtain ⟨Δ2, ΔL2, heq, hmap, hsub, hterm⟩ :=
      ih (st0 ++ (runLayer spawnOk st0 layer0).1) (ln0 ++ (runLayer spawnOk st0 layer0).2)
    refine ⟨(runLayer spawnOk st0 layer0).1 ++ Δ2,
            (runLayer spawnOk st0 layer0).2 ++ ΔL2, ?_, ?_, ?_, ?_⟩
    · rw [runLayers, heq, List.append_assoc, List.append_assoc]
    · rw [List.map_append, hmap, runLayer]
      simp only [List.map_map, flatNames, layerNames, List.map_cons, List.flatten_cons]
      rfl
    · intro x hx
      rw [flatNames, layerNames, List.map_cons, List.flatten_cons]
      rcases List.mem_append.mp hx with hx | hx
      · refine List.mem_append_left _ ?_
        rw [runLayer] at hx
        simp only at hx
        obtain ⟨s2, hs2, hs2n⟩ := List.mem_map.mp hx
        exact hs2n ▸ List.mem_map_of_mem Service.name (List.mem_of_mem_filter hs2)
      · have := hsub x hx
        rw [flatNames, layerNames] at this
        exact List.mem_append_right _ this
    · intro p hp
      rcases List.mem_append.mp hp with hp | hp
      · rw [runLayer] at hp
        simp only at hp
        obtain ⟨s2, _, hs2n⟩ := List.mem_map.mp hp
        have := stepService_terminal spawnOk st0 s2
        rw [← hs2n]
        exact this
      · exact hterm p hp

theorem runLayers_fixpoint (spawnOk : String → Bool) :
    ∀ (LL : List (List Service)) (st0 : StateMap) (ln0 : List String),
      (st0.map Prod.fst ++ flatNames LL).Nodup →
      (∀ (A : List (List Service)) (layer : List Service) (B : List (List Service)),
        LL = A ++ layer :: B → ∀ s ∈ layer, ∀ d ∈ s.depends_on,
          d ∈ st0.map Prod.fst ++ flatNames A) →
      ∀ layer ∈ LL, ∀ s ∈ layer,
        lookupState (runLayers spawnOk LL st0 ln0).1 s.name =
          some (stepService spawnOk (runLayers spawnOk LL st0 ln0).1 s) ∧
        (s.name ∈ (runLayers spawnOk LL st0 ln0).2 ↔
          s.name ∈ ln0 ∨ isLaunched (runLayers spawnOk LL st0 ln0).1 s = true) := by
  intro LL
  induction LL with
  | nil => intro st0 ln0 _ _ layer hlayer; cases hlayer
  | cons layer0 rest ih =>
    intro st0 ln0 hnodup htopo layer hlayer s hs
    have hunfold : runLayers spawnOk (layer0 :: rest) st0 ln0 =
        runLayers spawnOk rest (st0 ++ (runLayer spawnOk st0 layer0).1)
          (ln0 ++ (runLayer spawnOk st0 layer0).2) := rfl
    have hL1map : (runLayer spawnOk st0 layer0).1.map Prod.fst =
        layer0.map Service.name := by
      rw [runLayer]
      simp only [List.map_map]
      rfl
    have hst1map : (st0 ++ (runLayer spawnOk st0 layer0).1).map Prod.fst =
        st0.map Prod.fst ++ layer0.map Service.name := by
      rw [List.map_append, hL1map]
    have hflat : flatNames (layer0 :: rest) =
        layer0.map Service.name ++ flatNames rest := by
      rw [flatNames, layerNames, List.map_cons, List.flatten_cons]
      rfl
    have hnodup1 : (st0.map Prod.fst ++
        (layer0.map Service.name ++ flatNames rest)).Nodup := by
      rw [← hflat]
      exact hnodup
    obtain ⟨hst0nd, hrightnd, hdisj1⟩ := List.nodup_append.mp hnodup1
    obtain ⟨hl0nd, hfrnd, hdisj2⟩ := List.nodup_append.mp hrightnd
    have hnodup2 : ((st0 ++ (runLayer spawnOk st0 layer0).1).map Prod.fst ++
        flatNames rest).Nodup := by
      rw [hst1map, List.append_assoc]
      exact hnodup1
    have htopo2 : ∀ (A : List (List Service)) (layer2 : List Service)
        (B : List (List Service)), rest = A ++ layer2 :: B →
        ∀ s2 ∈ layer2, ∀ d ∈ s2.depends_on,
          d ∈ (st0 ++ (runLayer spawnOk st0 layer0).1).map Prod.fst ++ flatNames A := by
      intro A layer2 B hsplit s2 hs2 d hd
      have hLL : layer0 :: rest = (layer0 :: A) ++ layer2 :: B := by
        rw [List.cons_append, hsplit]
      have hmem := htopo (layer0 :: A) layer2 B hLL s2 hs2 d hd
      have hflatA : flatNames (layer0 :: A) =
          layer0.map Service.name ++ flatNames A := by
        rw [flatNames, layerNames, List.map_cons, List.flatten_cons]
        rfl
      rw [hflatA] at hmem
      rw [hst1map, List.append_assoc]
      exact hmem
    obtain ⟨Δ2, ΔL2, heq, hmap2, hsubΔL, _⟩ :=
      runLayers_structure spawnOk rest (st0 ++ (runLayer spawnOk st0 layer0).1)
        (ln0 ++ (runLayer spawnOk st0 layer0).2)
    rcases List.mem_cons.mp hlayer with h0 | hrest
    · subst h0
      have hsname_l0 : s.name ∈ layer.map Service.name :=
        List.mem_map_of_mem Service.name hs
      have hsnot_st0 : s.name ∉ st0.map Prod.fst := by
        intro hmem
        exact hdisj1 hmem (List.mem_append_left _ hsname_l0)
      have hsnot_fr : s.name ∉ flatNames rest := fun hmem => hdisj2 hsname_l0 hmem
      have hdepstable : ∀ d ∈ s.depends_on,
          lookupState st0 d =
            lookupState (runLayers spawnOk (layer :: rest) st0 ln0).1 d := by
        intro d hd
        have hdin := htopo [] layer rest rfl s hs d hd
        have hdin2 : d ∈ st0.map Prod.fst := by
          simpa [flatNames, layerNames] using hdin
        rw [hunfold, heq]
        simp only
        rw [List.append_assoc, lookupState_append_left hdin2]
      have hlkpL1 : lookupState (runLayer spawnOk st0 layer).1 s.name =
          some (stepService spawnOk st0 s) := by
        rw [runLayer]
        simp only
        exact lookupState_layer hl0nd hs (stepService spawnOk st0)
      constructor
      · rw [hunfold, heq]
        simp only
        rw [lookupState_append_left
          (by rw [hst1map]; exact List.mem_append_right _ hsname_l0)]
        rw [lookupState_append_right hsnot_st0, hlkpL1]
        have hcongr := stepService_congr spawnOk hdepstable
        have hF1 : (runLayers spawnOk (layer :: rest) st0 ln0).1 =
            st0 ++ (runLayer spawnOk st0 layer).1 ++ Δ2 :=
          congrArg Prod.fst (hunfold.trans heq)
        rw [hF1] at hcongr
        rw [hcongr]
      · rw [hunfold, heq]
        simp only
        have hL2iff : s.name ∈ (runLayer spawnOk st0 layer).2 ↔
            isLaunched st0 s = true := by
          rw [runLayer]
          simp only
          constructor
          · intro hmem
            obtain ⟨s2, hs2, hs2n⟩ := List.mem_map.mp hmem
            have hs2mem : s2 ∈ layer := List.mem_of_mem_filter hs2
            have hs2l : isLaunched st0 s2 = true := List.of_mem_filter hs2
            have : s2 = s := service_eq_of_name_eq hl0nd hs hs2mem hs2n
            exact this ▸ hs2l
          · intro hl
            exact List.mem_map_of_mem Service.name
              (List.mem_filter.mpr ⟨hs, hl⟩)
        have hnotΔL2 : s.name ∉ ΔL2 := fun hmem => hsnot_fr (hsubΔL _ hmem)
        have hlcongr := isLaunched_congr hdepstable
        rw [hunfold, heq] at hlcongr
        simp only at hlcongr
        constructor
        · intro hmem
          rcases List.mem_append.mp hmem with hmem | hmem
          · rcases List.mem_append.mp hmem with hmem | hmem
            · exact Or.inl hmem
            · exact Or.inr (hlcongr ▸ hL2iff.mp hmem)
          · exact absurd hmem hnotΔL2
        · intro hmem
          rcases hmem with hmem | hmem
          · exact List.mem_append_left _ (List.mem_append_left _ hmem)
          · refine List.mem_append_left _ (List.mem_append_right _ ?_)
            exact hL2iff.mpr (hlcongr.symm ▸ hmem)
    · have hIH := ih (st0 ++ (runLayer spawnOk st0 layer0).1)
        (ln0 ++ (runLayer spawnOk st0 layer0).2) hnodup2 htopo2 layer hrest s hs
      have hsfr : s.name ∈ flatNames rest := mem_flatNames hrest hs
      constructor
      · rw [hunfold]
        exact hIH.1
      · rw [hunfold]
        rw [hIH.2]
        have hnotL2 : s.name ∉ (runLayer spawnOk st0 layer0).2 := by
          intro hmem
          rw [runLayer] at hmem
          simp only at hmem
          obtain ⟨s2, hs2, hs2n⟩ := List.mem_map.mp hmem
          have : s.name ∈ layer0.map Service.name :=
            hs2n ▸ List.mem_map_of_mem Service.name (List.mem_of_mem_filter hs2)
          exact hdisj2 this hsfr
        constructor
        · intro hmem
          rcases hmem with hmem | hmem
          · rcases List.mem_append.mp hmem with hmem | hmem
            · exact Or.inl hmem
            · exact absurd hmem hnotL2
          · exact Or.inr hmem
        · intro hmem
          rcases hmem with hmem | hmem
          · exact Or.inl (List.mem_append_left _ hmem)
          · exact Or.inr hmem

/-
Start-level lemmas for a validated registry.
-/

theorem start_service_spec {r : Registry} (hok : loadOk r = true) {t : String}
    (ht : t ∈ names r) (spawnOk : String → Bool) {s : Service}
    (hs : s ∈ closureRegistry r t) :
    lookupState (runLayers spawnOk (resolveLayers r t).1 [] []).1 s.name =
      some (stepService spawnOk (runLayers spawnOk (resolveLayers r t).1 [] []).1 s) ∧
    (s.name ∈ (runLayers spawnOk (resolveLayers r t).1 [] []).2 ↔
      isLaunched (runLayers spawnOk (resolveLayers r t).1 [] []).1 s = true) := by
  obtain ⟨_, hnd, hres, _⟩ := loadOk_spec hok
  have hlo : (resolveLayers r t).2 = [] := resolveLayers_leftover_nil hok ht
  have hperm : List.Perm (resolveLayers r t).1.flatten (closureRegistry r t) := by
    have := layersAux_perm (closureRegistry r t).length (closureRegistry r t) []
    rw [resolveLayers] at hlo
    rw [hlo, List.append_nil] at this
    exact this
  have hflat : flatNames (resolveLayers r t).1 =
      ((resolveLayers r t).1.flatten).map Service.name := by
    rw [flatNames, layerNames, List.map_flatten]
  have hnodupflat :
      (([] : StateMap).map Prod.fst ++ flatNames (resolveLayers r t).1).Nodup := by
    rw [List.map_nil, List.nil_append, hflat]
    exact (hperm.map Service.name).nodup_iff.mpr (names_closureRegistry_nodup hnd t)
  have htopo : ∀ (A : List (List Service)) (layer : List Service)
      (B : List (List Service)), (resolveLayers r t).1 = A ++ layer :: B →
      ∀ s2 ∈ layer, ∀ d ∈ s2.depends_on,
        d ∈ ([] : StateMap).map Prod.fst ++ flatNames A := by
    intro A layer B hsplit s2 hs2 d hd
    exact layersAux_topo (closureRegistry r t).length (closureRegistry r t) []
      A layer B hsplit s2 hs2 d hd
  have hsf : s ∈ (resolveLayers r t).1.flatten := hperm.mem_iff.mpr hs
  obtain ⟨layer, hlayer, hslayer⟩ := List.mem_flatten.mp hsf
  have := runLayers_fixpoint spawnOk (resolveLayers r t).1 [] [] hnodupflat htopo
    layer hlayer s hslayer
  refine ⟨this.1, ?_⟩
  rw [this.2]
  constructor
  · intro h
    rcases h with h | h
    · cases h
    · exact h
  · exact Or.inr

theorem start_report {r : Registry} (hok : loadOk r = true) {t : String}
    (ht : t ∈ names r) (spawnOk : String → Bool) :
    (∀ n, n ∈ ((runLayers spawnOk (resolveLayers r t).1 [] []).1.map Prod.fst) ↔
      n ∈ closureNames r t) ∧
    ((runLayers spawnOk (resolveLayers r t).1 [] []).1.map Prod.fst).Nodup ∧
    (∀ p ∈ (runLayers spawnOk (resolveLayers r t).1 [] []).1,
      p.2 = ServiceState.Ready ∨ p.2 = ServiceState.Failed ∨
        p.2 = ServiceState.Skipped) := by
  obtain ⟨_, hnd, hres, _⟩ := loadOk_spec hok
  have hlo : (resolveLayers r t).2 = [] := resolveLayers_leftover_nil hok ht
  have hperm : List.Perm (resolveLayers r t).1.flatten (closureRegistry r t) := by
    have := layersAux_perm (closureRegistry r t).length (closureRegistry r t) []
    rw [resolveLayers] at hlo
    rw [hlo, List.append_nil] at this
    exact this
  obtain ⟨Δ, ΔL, heq, hmap, _, hterm⟩ :=
    runLayers_structure spawnOk (resolveLayers r t).1 [] []
  have hst : (runLayers spawnOk (resolveLayers r t).1 [] []).1 = Δ := by
    rw [heq, List.nil_append]
  have hmapfst : (runLayers spawnOk (resolveLayers r t).1 [] []).1.map Prod.fst =
      flatNames (resolveLayers r t).1 := by
    rw [hst, hmap]
  have hpermn : List.Perm (flatNames (resolveLayers r t).1)
      (names (closureRegistry r t)) := by
    rw [flatNames, layerNames, ← List.map_flatten]
    exact hperm.map Service.name
  refine ⟨?_, ?_, ?_⟩
  · intro n
    rw [hmapfst, hpermn.mem_iff]
    exact mem_names_closureRegistry hres ht
  · rw [hmapfst]
    exact hpermn.nodup_iff.mpr (names_closureRegistry_nodup hnd t)
  · intro p hp
    rw [hst] at hp
    exact hterm p hp

theorem skip_of_bad_dep {r : Registry} (hok : loadOk r = true) {t : String}
    (ht : t ∈ names r) (spawnOk : String → Bool) {y d : String}
    (hy : y ∈ closureNames r t) (hd : d ∈ depsOf r y)
    (hds : lookupState (runLayers spawnOk (resolveLayers r t).1 [] []).1 d ≠
      some ServiceState.Ready) :
    lookupState (runLayers spawnOk (resolveLayers r t).1 [] []).1 y =
      some ServiceState.Skipped ∧
    y ∉ (runLayers spawnOk (resolveLayers r t).1 [] []).2 := by
  obtain ⟨_, hnd, hres, _⟩ := loadOk_spec hok
  have hyr : y ∈ names r := closureNames_subset hres ht y hy
  obtain ⟨s, hsr, hsn⟩ := mem_names_iff.mp hyr
  have hscl : s ∈ closureRegistry r t := mem_closureRegistry_iff.mpr ⟨hsr, hsn ▸ hy⟩
  have hdep : d ∈ s.depends_on := by
    have := depsOf_of_mem hnd hsr
    rw [hsn] at this
    rw [this] at hd
    exact hd
  obtain ⟨hlkp, hlaunch⟩ := start_service_spec hok ht spawnOk hscl
  have hnotready : depsAllReady (runLayers spawnOk (resolveLayers r t).1 [] []).1 s =
      false := by
    by_contra hcon
    rw [Bool.not_eq_false] at hcon
    rw [depsAllReady, List.all_eq_true] at hcon
    have := hcon d hdep
    rw [beq_iff_eq] at this
    exact hds this
  have hstep : stepService spawnOk (runLayers spawnOk (resolveLayers r t).1 [] []).1 s =
      ServiceState.Skipped := by
    rw [stepService, hnotready]
    simp
  constructor
  · rw [← hsn, hlkp, hstep]
  · rw [← hsn]
    intro hmem
    have := hlaunch.mp hmem
    rw [isLaunched, hnotready] at this
    cases this

theorem skip_of_chain {r : Registry} (hok : loadOk r = true) {t : String}
    (ht : t ∈ names r) (spawnOk : String → Bool) :
    ∀ (ch : List String), isChainB r ch = true → 2 ≤ ch.length →
      ∀ y x, ch.head? = some y → ch.getLast? = some x → y ∈ closureNames r t →
      (lookupState (runLayers spawnOk (resolveLayers r t).1 [] []).1 x =
          some ServiceState.Failed ∨
        lookupState (runLayers spawnOk (resolveLayers r t).1 [] []).1 x =
          some ServiceState.Skipped) →
      lookupState (runLayers spawnOk (resolveLayers r t).1 [] []).1 y =
        some ServiceState.Skipped ∧
      y ∉ (runLayers spawnOk (resolveLayers r t).1 [] []).2 := by
  obtain ⟨_, hnd, hres, _⟩ := loadOk_spec hok
  intro ch
  induction ch with
  | nil => intro _ hlen; cases hlen
  | cons y0 ch2 ih =>
    intro hchain hlen y x hhead hlast hycl hx
    have hy0 : y0 = y := Option.some.inj hhead
    subst hy0
    cases ch2 with
    | nil => simp at hlen
    | cons z ch3 =>
      obtain ⟨hedge, hchain2⟩ := isChainB_cons_cons.mp hchain
      have hzdep : z ∈ depsOf r y0 := by
        rw [dependsOnB, contains_iff_mem] at hedge
        exact hedge
      cases ch3 with
      | nil =>
        have hzx : z = x := by
          have : (y0 :: [z]).getLast? = some z := by rfl
          rw [this] at hlast
          exact Option.some.inj hlast
        subst hzx
        refine skip_of_bad_dep hok ht spawnOk hycl hzdep ?_
        rcases hx with hx | hx
        · rw [hx]; intro hcon; cases hcon
        · rw [hx]; intro hcon; cases hcon
      | cons w ch4 =>
        have hzcl : z ∈ closureNames r t :=
          closureNames_closed hres ht y0 hycl z hzdep
        have hlast2 : (z :: w :: ch4).getLast? = some x := by
          rw [← List.getLast?_cons_cons]
          exact hlast
        have hz := ih hchain2 (by simp) z x rfl hlast2 hzcl hx
        refine skip_of_bad_dep hok ht spawnOk hycl hzdep ?_
        rw [hz.1]
        intro hcon
        cases hcon

theorem findService_exists_of_mem {r : Registry} {t : String} (ht : t ∈ names r) :
    ∃ s0, findService r t = some s0 := by
  have := findService_isSome_iff.mpr ht
  exact Option.isSome_iff_exists.mp this

theorem startFull_found {r : Registry} {t : String} {s0 : Service}
    (hfind : findService r t = some s0) (spawnOk : String → Bool) :
    startFull r spawnOk t =
      (.ok { success := (runLayers spawnOk (resolveLayers r t).1 [] []).1.all
               (fun p => p.2 == ServiceState.Ready),
             states := (runLayers spawnOk (resolveLayers r t).1 [] []).1 },
       (runLayers spawnOk (resolveLayers r t).1 [] []).2) := by
  rw [startFull, hfind]

/-
Claim theorems.
-/

/-- C6: for every registry and every target name absent from it, start raises
UnknownTargetError and touches no service state: the boot produces no state
entries and launches no process. -/
theorem claim_C6_unknown_target (r : Registry) (spawnOk : String → Bool)
    (t : String) (h : findService r t = none) :
    startFull r spawnOk t = (.error (.unknownTargetError t), []) := by
  rw [startFull, h]

/-- C6 witness: starting the nonexistent target on the spec example registry
raises UnknownTargetError with an empty effect log. -/
theorem claim_C6_witness :
    findService regBootExample "nonexistent" = none ∧
    startFull regBootExample spawnAll "nonexistent" =
      (.error (.unknownTargetError "nonexistent"), []) :=
  ⟨by decide,
   claim_C6_unknown_target regBootExample spawnAll "nonexistent" (by decide)⟩

/-- C7: resolution is deterministic — resolving the same (registry, target)
pair twice yields the same layers and the same start result — and ties are
broken by input declaration order: every produced layer is a sublist of the
registry in declaration order. -/
theorem claim_C7_deterministic_resolution (r : Registry) (t : String)
    (spawnOk : String → Bool) :
    resolveLayers r t = resolveLayers r t ∧
    SimpleDinit.start r spawnOk t = SimpleDinit.start r spawnOk t ∧
    ∀ l ∈ (resolveLayers r t).1, List.Sublist l r := by
  refine ⟨rfl, rfl, ?_⟩
  intro l hl
  have h1 : List.Sublist l (closureRegistry r t) :=
    layersAux_layer_sublist (closureRegistry r t).length (closureRegistry r t) [] l hl
  exact h1.trans (closureRegistry_sublist r t)

/-- C7 witness: the first layer that resolution of the boot target produces
on the spec example registry is a declaration-order sublist of the
registry. -/
theorem claim_C7_witness :
    List.Sublist
      [{ name := "db", command := ["postgres"], depends_on := [],
         kind := SKind.process }]
      regBootExample :=
  (claim_C7_deterministic_resolution regBootExample "boot" spawnAll).2.2
    [{ name := "db", command := ["postgres"], depends_on := [],
       kind := SKind.process }]
    (by decide)

/-- C10: constructing a GradingRunner with problem_id none while the
PROBLEM_ID environment variable is unset raises ValueError for every
combination of the other arguments, and the constructor performs no side
effect: its effect trace is empty. -/
theorem claim_C10_missing_problem_id (args : InitArgs) (env : GradingEnvVars)
    (u : String) (hp : args.problem_id = none) (he : env.problem_id_var = none) :
    GradingRunner.init args env u =
      (.error "problem_id is required. Set PROBLEM_ID env var or pass problem_id parameter.",
       []) := by
  rw [GradingRunner.init]
  simp only [hp, he, truthy]
  rfl

/-- C10 witness: the concrete no-problem-id arguments raise the ValueError
with an empty effect trace. -/
theorem claim_C10_witness :
    GradingRunner.init argsNoProblem envNoProblem "u0" =
      (.error "problem_id is required. Set PROBLEM_ID env var or pass problem_id parameter.",
       []) :=
  claim_C10_missing_problem_id argsNoProblem envNoProblem "u0" rfl rfl

/-- C9: run_grading never modifies the original repository: the runner works
in the per-instance directory /tmp/grading_workspace_ followed by the uuid,
every command of the run writes only below that working directory, and as
long as the fresh working directory differs from the original repository
path no command writes to the original repository. -/
theorem claim_C9_grading_isolated (args : InitArgs) (env : GradingEnvVars)
    (u : String) (oracle : RunOracle) (runner : GradingRunner)
    (hinit : GradingRunner.init args env u = (.ok runner, [])) :
    runner.grade_working_dir = "/tmp/grading_workspace_" ++ u ∧
    (∀ c ∈ (run_grading runner env oracle).2, ∀ w ∈ c.writes,
      w = runner.grade_working_dir) ∧
    (runner.original_repo_path ≠ runner.grade_working_dir →
      ∀ c ∈ (run_grading runner env oracle).2,
        runner.original_repo_path ∉ c.writes) := by
  have hwd : runner.grade_working_dir = "/tmp/grading_workspace_" ++ u := by
    rw [GradingRunner.init] at hinit
    by_cases hpid : truthy (if truthy args.problem_id then args.problem_id
        else env.problem_id_var) = true
    · simp only [hpid, if_true] at hinit
      have := (Prod.mk.injEq _ _ _ _ ▸ hinit).1
      have hrec := Except.ok.inj this
      rw [← hrec]
    · simp only [hpid, Bool.false_eq_true, if_false] at hinit
      have := (Prod.mk.injEq _ _ _ _ ▸ hinit).1
      cases this
  have hwrites : ∀ c ∈ (run_grading runner env oracle).2, ∀ w ∈ c.writes,
      w = runner.grade_working_dir := by
    intro c hc
    rcases hb : oracle.buildOk with _ | _ <;>
      rcases hsample : env.repo_url_is_sample with _ | _ <;>
        rcases hns : oracle.pkgVersionNeedsServer with _ | _ <;>
          rcases hsr : oracle.serverReady with _ | _ <;>
            simp only [run_grading, needsServerStart, testInvocation, hb, hsample,
              hns, hsr, Bool.not_false, Bool.not_true, Bool.false_eq_true,
              if_false, if_true, List.append_assoc, List.cons_append,
              List.nil_append, List.append_nil] at hc <;>
            fin_cases hc <;>
              first
              | (intro w hw;
                 simp only [Cmd.writes, List.mem_singleton] at hw;
                 exact hw)
              | (intro w hw;
                 simp only [Cmd.writes, List.not_mem_nil] at hw)
  refine ⟨hwd, hwrites, ?_⟩
  intro hne c hc hmem
  exact hne (hwrites c hc _ hmem)

/-- C9 witness: a concrete grading run starting from argsWithProblem works
in the fresh directory named by the uuid and writes only below it. -/
theorem claim_C9_witness :
    gradeRunnerU0.grade_working_dir = "/tmp/grading_workspace_" ++ "u0" ∧
    (∀ c ∈ (run_grading gradeRunnerU0 envNoProblem oracleSample).2, ∀ w ∈ c.writes,
      w = gradeRunnerU0.grade_working_dir) ∧
    (gradeRunnerU0.original_repo_path ≠ gradeRunnerU0.grade_working_dir →
      ∀ c ∈ (run_grading gradeRunnerU0 envNoProblem oracleSample).2,
        gradeRunnerU0.original_repo_path ∉ c.writes) :=
  claim_C9_grading_isolated argsWithProblem envNoProblem "u0" oracleSample
    gradeRunnerU0 (by rfl)

/-- C2: for every validated registry and target present in it, start visits
every service of the closure exactly once (the report names are exactly the
closure and contain no duplicate), drives each to a terminal state (Ready,
Failed or Skipped), and returns a BootResult with an overall success boolean
and a per-service entry for every closure member. -/
theorem claim_C2_complete_boot_report (r : Registry) (spawnOk : String → Bool)
    (t : String) (hok : loadOk r = true) (ht : t ∈ names r) :
    ∃ br : BootResult, SimpleDinit.start r spawnOk t = .ok br ∧
      (∀ n, n ∈ br.states.map Prod.fst ↔ n ∈ closureNames r t) ∧
      (br.states.map Prod.fst).Nodup ∧
      (∀ p ∈ br.states, p.2 = ServiceState.Ready ∨ p.2 = ServiceState.Failed ∨
        p.2 = ServiceState.Skipped) := by
  obtain ⟨s0, hfind⟩ := findService_exists_of_mem ht
  obtain ⟨hmem, hnodup, hterm⟩ := start_report hok ht spawnOk
  refine ⟨{ success := (runLayers spawnOk (resolveLayers r t).1 [] []).1.all
              (fun p => p.2 == ServiceState.Ready),
            states := (runLayers spawnOk (resolveLayers r t).1 [] []).1 },
          ?_, hmem, hnodup, hterm⟩
  rw [SimpleDinit.start, startFull_found hfind spawnOk]

/-- C2 witness: on the spec example registry with all spawns succeeding,
start of the boot target reports exactly db, web and boot, once each, all
terminal. -/
theorem claim_C2_witness :
    loadOk regBootExample = true ∧ "boot" ∈ names regBootExample ∧
    (∃ br : BootResult, SimpleDinit.start regBootExample spawnAll "boot" = .ok br ∧
      (∀ n, n ∈ br.states.map Prod.fst ↔ n ∈ closureNames regBootExample "boot") ∧
      (br.states.map Prod.fst).Nodup ∧
      (∀ p ∈ br.states, p.2 = ServiceState.Ready ∨ p.2 = ServiceState.Failed ∨
        p.2 = ServiceState.Skipped)) :=
  ⟨by decide, by decide,
   claim_C2_complete_boot_report regBootExample spawnAll "boot" (by decide) (by decide)⟩

/-- C4: structural errors and boot failures are surfaced differently: a
Loader error aborts the pipeline as an exception before any process is
spawned (empty launch log), while on a validated registry with a present
target start always returns a normal BootResult — whatever the spawn
outcomes — whose success flag is false exactly when some service ended
Failed or Skipped, and which names every closure service with its state. -/
theorem claim_C4_failure_surfacing (r : Registry) (spawnOk : String → Bool)
    (t : String) :
    (∀ e, load_all r = .error e → setup_dinit r spawnOk t = (.error (.inl e), [])) ∧
    (loadOk r = true → t ∈ names r →
      ∃ br : BootResult, SimpleDinit.start r spawnOk t = .ok br ∧
        setup_dinit r spawnOk t = (.ok br, SimpleDinit.launches r spawnOk t) ∧
        (br.success = false ↔ ∃ p ∈ br.states,
          p.2 = ServiceState.Failed ∨ p.2 = ServiceState.Skipped) ∧
        (∀ n ∈ closureNames r t, ∃ q, (n, q) ∈ br.states)) := by
  constructor
  · intro e herr
    rw [setup_dinit, herr]
  · intro hok ht
    obtain ⟨hla, _, _, _⟩ := loadOk_spec hok
    obtain ⟨s0, hfind⟩ := findService_exists_of_mem ht
    obtain ⟨hmem, _, hterm⟩ := start_report hok ht spawnOk
    refine ⟨{ success := (runLayers spawnOk (resolveLayers r t).1 [] []).1.all
                (fun p => p.2 == ServiceState.Ready),
              states := (runLayers spawnOk (resolveLayers r t).1 [] []).1 },
            ?_, ?_, ?_, ?_⟩
    · rw [SimpleDinit.start, startFull_found hfind spawnOk]
    · rw [setup_dinit, hla]
      simp only
      rw [startFull_found hfind spawnOk, SimpleDinit.launches,
        startFull_found hfind spawnOk]
    · simp only
      constructor
      · intro hfalse
        have hnotall : ¬ ((runLayers spawnOk (resolveLayers r t).1 [] []).1.all
            (fun p => p.2 == ServiceState.Ready) = true) := by
          rw [hfalse]
          intro hcon
          cases hcon
        rw [List.all_eq_true] at hnotall
        push_neg at hnotall
        obtain ⟨p, hp, hpne⟩ := hnotall
        refine ⟨p, hp, ?_⟩
        rcases hterm p hp with hq | hq | hq
        · exfalso
          refine hpne ?_
          rw [hq]
          rfl
        · exact Or.inl hq
        · exact Or.inr hq
      · rintro ⟨p, hp, hps⟩
        by_contra hcon
        rw [Bool.not_eq_false, List.all_eq_true] at hcon
        have := hcon p hp
        rw [beq_iff_eq] at this
        rcases hps with hps | hps <;> rw [hps] at this <;> cases this
    · intro n hn
      have := (hmem n).mpr hn
      obtain ⟨p, hp, hpn⟩ := List.mem_map.mp this
      refine ⟨p.2, ?_⟩
      have : p = (n, p.2) := by
        rw [← hpn]
      rw [← this]
      exact hp

/-- C4 witness: the A-B cycle registry aborts the pipeline with the cyclic
error before any launch, and on the spec example registry with a failing db
spawn start returns a normal unsuccessful report. -/
theorem claim_C4_witness :
    setup_dinit regCycleAB spawnAll "boot" =
      (.error (.inl (.cyclicDependencyError ["A", "B"])), []) ∧
    (∃ br : BootResult,
      SimpleDinit.start regBootExample spawnFailDb "boot" = .ok br ∧
      setup_dinit regBootExample spawnFailDb "boot" =
        (.ok br, SimpleDinit.launches regBootExample spawnFailDb "boot") ∧
      (br.success = false ↔ ∃ p ∈ br.states,
        p.2 = ServiceState.Failed ∨ p.2 = ServiceState.Skipped) ∧
      (∀ n ∈ closureNames regBootExample "boot", ∃ q, (n, q) ∈ br.states)) :=
  ⟨(claim_C4_failure_surfacing regCycleAB spawnAll "boot").1
     (.cyclicDependencyError ["A", "B"]) (by rfl),
   (claim_C4_failure_surfacing regBootExample spawnFailDb "boot").2
     (by decide) (by decide)⟩

/-- C1: on a validated registry, if a closure service X ends Failed then
every closure service Y that directly or transitively depends on X ends the
start invocation Skipped — never Ready or Starting — and the process of Y is
never launched. -/
theorem claim_C1_failure_propagation (r : Registry) (spawnOk : String → Bool)
    (t : String) (hok : loadOk r = true) (ht : t ∈ names r)
    (X Y : String) (_hX : X ∈ closureNames r t) (hY : Y ∈ closureNames r t)
    (hdep : DependsOn r Y X)
    (br : BootResult) (hbr : SimpleDinit.start r spawnOk t = .ok br)
    (hfailed : lookupState br.states X = some ServiceState.Failed) :
    lookupState br.states Y = some ServiceState.Skipped ∧
    lookupState br.states Y ≠ some ServiceState.Ready ∧
    lookupState br.states Y ≠ some ServiceState.Starting ∧
    Y ∉ SimpleDinit.launches r spawnOk t := by
  obtain ⟨s0, hfind⟩ := findService_exists_of_mem ht
  rw [SimpleDinit.start, startFull_found hfind spawnOk] at hbr
  have hbr2 := Except.ok.inj hbr
  have hstates : br.states = (runLayers spawnOk (resolveLayers r t).1 [] []).1 := by
    rw [← hbr2]
  have hlaunch : SimpleDinit.launches r spawnOk t =
      (runLayers spawnOk (resolveLayers r t).1 [] []).2 := by
    rw [SimpleDinit.launches, startFull_found hfind spawnOk]
  obtain ⟨ch, hlen, hchain, hhead, hlast⟩ := hdep
  rw [hstates] at hfailed
  have hmain := skip_of_chain hok ht spawnOk ch hchain hlen Y X hhead hlast hY
    (Or.inl hfailed)
  rw [hstates, hlaunch]
  refine ⟨hmain.1, ?_, ?_, hmain.2⟩
  · rw [hmain.1]
    intro hcon
    cases hcon
  · rw [hmain.1]
    intro hcon
    cases hcon

/-- C1 witness: on the spec example registry with the db spawn failing, web
(which depends on db) ends Skipped and its process is never launched. -/
theorem claim_C1_witness :
    lookupState bootFailDbResult.states "web" = some ServiceState.Skipped ∧
    lookupState bootFailDbResult.states "web" ≠ some ServiceState.Ready ∧
    lookupState bootFailDbResult.states "web" ≠ some ServiceState.Starting ∧
    "web" ∉ SimpleDinit.launches regBootExample spawnFailDb "boot" :=
  claim_C1_failure_propagation regBootExample spawnFailDb "boot" (by decide)
    (by decide) "db" "web" (by decide) (by decide)
    ⟨["web", "db"], by decide, by decide, rfl, rfl⟩
    bootFailDbResult (by rfl) (by decide)

theorem flatNames_append (A B : List (List Service)) :
    flatNames (A ++ B) = flatNames A ++ flatNames B := by
  rw [flatNames, flatNames, flatNames, layerNames, layerNames, layerNames,
    List.map_append, List.flatten_append]

theorem flatNames_cons (l : List Service) (L : List (List Service)) :
    flatNames (l :: L) = l.map Service.name ++ flatNames L := by
  rw [flatNames, flatNames, layerNames, layerNames, List.map_cons,
    List.flatten_cons]

theorem start_states_map_fst (r : Registry) (spawnOk : String → Bool) (t : String) :
    (runLayers spawnOk (resolveLayers r t).1 [] []).1.map Prod.fst =
      flatNames (resolveLayers r t).1 := by
  obtain ⟨Δ, ΔL, heq, hmap, _, _⟩ :=
    runLayers_structure spawnOk (resolveLayers r t).1 [] []
  rw [heq, List.nil_append]
  exact hmap

theorem resolve_layer_mem {r : Registry} (hok : loadOk r = true) {t : String}
    (ht : t ∈ names r) {layer : List Service} {s : Service}
    (hlayer : layer ∈ (resolveLayers r t).1) (hs : s ∈ layer) :
    s ∈ closureRegistry r t := by
  have hlo : (resolveLayers r t).2 = [] := resolveLayers_leftover_nil hok ht
  have hperm : List.Perm (resolveLayers r t).1.flatten (closureRegistry r t) := by
    have := layersAux_perm (closureRegistry r t).length (closureRegistry r t) []
    rw [resolveLayers] at hlo
    rw [hlo, List.append_nil] at this
    exact this
  exact hperm.mem_iff.mp (List.mem_flatten.mpr ⟨layer, hlayer, hs⟩)

/-- C5: a service is launched only when every one of its declared
dependencies already reached Ready and appears strictly earlier in the
processing trace, and layers execute strictly in sequence: every service of
an earlier layer appears in the trace strictly before every service of any
later layer, with a terminal state recorded. -/
theorem claim_C5_ordering (r : Registry) (spawnOk : String → Bool) (t : String)
    (hok : loadOk r = true) (ht : t ∈ names r)
    (br : BootResult) (hbr : SimpleDinit.start r spawnOk t = .ok br) :
    (∀ layer ∈ (resolveLayers r t).1, ∀ s ∈ layer,
      s.name ∈ SimpleDinit.launches r spawnOk t →
      ∀ d ∈ s.depends_on,
        lookupState br.states d = some ServiceState.Ready ∧
        idxOf d (br.states.map Prod.fst) < idxOf s.name (br.states.map Prod.fst)) ∧
    (∀ (A : List (List Service)) (layerE : List Service) (C : List (List Service)),
      (resolveLayers r t).1 = A ++ layerE :: C →
      ∀ (M : List (List Service)) (layerL : List Service) (B : List (List Service)),
        C = M ++ layerL :: B →
        ∀ s2 ∈ layerE, ∀ s ∈ layerL,
          idxOf s2.name (br.states.map Prod.fst) <
            idxOf s.name (br.states.map Prod.fst) ∧
          ∃ q, (s2.name, q) ∈ br.states ∧
            (q = ServiceState.Ready ∨ q = ServiceState.Failed ∨
              q = ServiceState.Skipped)) := by
  obtain ⟨_, hnd, hres, _⟩ := loadOk_spec hok
  obtain ⟨s0, hfind⟩ := findService_exists_of_mem ht
  rw [SimpleDinit.start, startFull_found hfind spawnOk] at hbr
  have hbr2 := Except.ok.inj hbr
  have hstates : br.states = (runLayers spawnOk (resolveLayers r t).1 [] []).1 := by
    rw [← hbr2]
  have hlaunch : SimpleDinit.launches r spawnOk t =
      (runLayers spawnOk (resolveLayers r t).1 [] []).2 := by
    rw [SimpleDinit.launches, startFull_found hfind spawnOk]
  have hmapfst : br.states.map Prod.fst = flatNames (resolveLayers r t).1 := by
    rw [hstates]
    exact start_states_map_fst r spawnOk t
  obtain ⟨hmem, hnodup, hterm⟩ := start_report hok ht spawnOk
  have hnodupf : (flatNames (resolveLayers r t).1).Nodup := by
    rw [← start_states_map_fst r spawnOk t]
    exact hnodup
  constructor
  · intro layer hlayer s hs hlmem d hd
    have hscl : s ∈ closureRegistry r t := resolve_layer_mem hok ht hlayer hs
    obtain ⟨_, hlaunchiff⟩ := start_service_spec hok ht spawnOk hscl
    rw [hlaunch] at hlmem
    have hisl := hlaunchiff.mp hlmem
    rw [isLaunched, Bool.and_eq_true] at hisl
    have hready := hisl.1
    rw [depsAllReady, List.all_eq_true] at hready
    have hdready := hready d hd
    rw [beq_iff_eq] at hdready
    constructor
    · rw [hstates]
      exact hdready
    · rw [hmapfst]
      refine ranking_of_layers (r := closureRegistry r t)
        (names_closureRegistry_nodup hnd t) ?_ s hscl d hd
      exact resolveLayers_leftover_nil hok ht
  · intro A layerE C hsplit1 M layerL B hsplit2 s2 hs2 s hs
    have hflatLL : flatNames (resolveLayers r t).1 =
        (flatNames A ++ layerE.map Service.name) ++ flatNames C := by
      rw [hsplit1, flatNames_append, flatNames_cons, List.append_assoc]
    have hs2X : s2.name ∈ flatNames A ++ layerE.map Service.name :=
      List.mem_append_right _ (List.mem_map_of_mem Service.name hs2)
    have hsY : s.name ∈ flatNames C := by
      rw [hsplit2, flatNames_append, flatNames_cons]
      exact List.mem_append_right _
        (List.mem_append_left _ (List.mem_map_of_mem Service.name hs))
    have hsnotX : s.name ∉ flatNames A ++ layerE.map Service.name := by
      intro hmem2
      have := hflatLL ▸ hnodupf
      rw [List.nodup_append] at this
      exact this.2.2 hmem2 hsY
    constructor
    · rw [hmapfst, hflatLL]
      exact idxOf_lt_of_split hs2X hsnotX
    · have hs2names : s2.name ∈ br.states.map Prod.fst := by
        rw [hmapfst, hflatLL]
        exact List.mem_append_left _ hs2X
      obtain ⟨p, hp, hpn⟩ := List.mem_map.mp hs2names
      refine ⟨p.2, ?_, ?_⟩
      · have hpeq : p = (s2.name, p.2) := by rw [← hpn]
        rw [← hpeq]
        exact hp
      · rw [hstates] at hp
        exact hterm p hp

/-- C5 witness: on the spec example registry with all spawns succeeding, web
is launched only with db already Ready and earlier in the trace, and db of
the first layer precedes web of the second layer with a terminal state. -/
theorem claim_C5_witness :
    (lookupState bootAllOkResult.states "db" = some ServiceState.Ready ∧
      idxOf "db" (bootAllOkResult.states.map Prod.fst) <
        idxOf "web" (bootAllOkResult.states.map Prod.fst)) ∧
    (idxOf "db" (bootAllOkResult.states.map Prod.fst) <
        idxOf "web" (bootAllOkResult.states.map Prod.fst) ∧
      ∃ q, ("db", q) ∈ bootAllOkResult.states ∧
        (q = ServiceState.Ready ∨ q = ServiceState.Failed ∨
          q = ServiceState.Skipped)) := by
  have h := claim_C5_ordering regBootExample spawnAll "boot" (by decide) (by decide)
    bootAllOkResult (by rfl)
  constructor
  · refine h.1
      [{ name := "web", command := ["node", "server.js"], depends_on := ["db"],
         kind := SKind.process }]
      (by decide)
      { name := "web", command := ["node", "server.js"], depends_on := ["db"],
        kind := SKind.process }
      (by decide) (by decide) "db" (by decide)
  · refine h.2 []
      [{ name := "db", command := ["postgres"], depends_on := [],
         kind := SKind.process }]
      [[{ name := "web", command := ["node", "server.js"], depends_on := ["db"],
          kind := SKind.process }],
       [{ name := "boot", command := [], depends_on := ["db", "web"],
          kind := SKind.target }]]
      (by decide) []
      [{ name := "web", command := ["node", "server.js"], depends_on := ["db"],
         kind := SKind.process }]
      [[{ name := "boot", command := [], depends_on := ["db", "web"],
          kind := SKind.target }]]
      (by decide)
      { name := "db", command := ["postgres"], depends_on := [],
        kind := SKind.process }
      (by decide)
      { name := "web", command := ["node", "server.js"], depends_on := ["db"],
        kind := SKind.process }
      (by decide)

/-- C3: a definition set with no duplicate names and no unresolved
dependency reference whose dependency graph contains a cycle is rejected by
load_all with a CyclicDependencyError that names one concrete, genuine
cycle, and load_all never returns a registry, so start is unreachable and
no service is ever started. -/
theorem claim_C3_cycle_rejected (r : Registry)
    (hnd : (names r).Nodup) (hres : firstUnresolved r = none)
    (hcyc : ∃ c, isCycleB r c = true) :
    ∃ cyc, load_all r = .error (.cyclicDependencyError cyc) ∧
      isCycleB r cyc = true ∧ cyc ≠ [] ∧
      (∀ reg, load_all r ≠ .ok reg) := by
  obtain ⟨c, hc⟩ := hcyc
  have hcne : c ≠ [] := by
    intro hnil
    rw [hnil] at hc
    cases hc
  have hin : ∀ x ∈ c, x ∈ names r := cycle_mem_names hc
  have hstuck := layersAux_cycle_stuck hnd hc r.length r [] (List.Sublist.refl r)
    hin (fun x _ hx => by cases hx)
  have hlon : (layersAux r.length r []).2 ≠ [] := by
    obtain ⟨x0, hx0⟩ := List.exists_mem_of_ne_nil c hcne
    have := hstuck x0 hx0
    intro hnil
    rw [hnil] at this
    cases this
  have hload := load_all_cyclic_error hnd hres hlon
  have hkeep := leftover_dep_in_leftover hnd hres
  have hgenuine : isCycleB r (findCycle r (layersAux r.length r []).2) = true :=
    findCycle_cycle_of hlon hkeep
  refine ⟨findCycle r (layersAux r.length r []).2, hload, hgenuine, ?_, ?_⟩
  · intro hnil
    rw [hnil] at hgenuine
    cases hgenuine
  · intro reg hcon
    rw [hload] at hcon
    cases hcon

/-- C3 witness: the registry with the cycle A to B to A is rejected with a
CyclicDependencyError naming the genuine cycle A, B — both members named —
and load_all never succeeds on it. -/
theorem claim_C3_witness :
    (∃ cyc, load_all regCycleAB = .error (.cyclicDependencyError cyc) ∧
      isCycleB regCycleAB cyc = true ∧ cyc ≠ [] ∧
      (∀ reg, load_all regCycleAB ≠ .ok reg)) ∧
    load_all regCycleAB = .error (.cyclicDependencyError ["A", "B"]) ∧
    "A" ∈ ["A", "B"] ∧ "B" ∈ ["A", "B"] :=
  ⟨claim_C3_cycle_rejected regCycleAB (by decide) (by decide)
     ⟨["A", "B"], by decide⟩,
   by rfl, by decide, by decide⟩

theorem deps_in_prefix {r : Registry} (hok : loadOk r = true) {t : String}
    (ht : t ∈ names r) {A T : List (List Service)}
    (hsplit : (resolveLayers r t).1 = A ++ T) {u : String}
    (hu : u ∈ flatNames A) : ∀ d ∈ depsOf r u, d ∈ flatNames A := by
  obtain ⟨_, hnd, hres, _⟩ := loadOk_spec hok
  intro d hd
  rw [flatNames, layerNames] at hu
  obtain ⟨lnames, hlnames, hulnames⟩ := List.mem_flatten.mp hu
  obtain ⟨layerj, hlayerj, hlayerjn⟩ := List.mem_map.mp hlnames
  rw [← hlayerjn] at hulnames
  obtain ⟨su, hsu, hsun⟩ := List.mem_map.mp hulnames
  obtain ⟨A2, B2, hA⟩ := List.append_of_mem hlayerj
  have hLL : (resolveLayers r t).1 = A2 ++ layerj :: (B2 ++ T) := by
    rw [hsplit, hA, List.append_assoc, List.cons_append]
  have hscl : su ∈ closureRegistry r t :=
    resolve_layer_mem hok ht (hsplit ▸ List.mem_append_left T hlayerj) hsu
  have hsur : su ∈ r := (mem_closureRegistry_iff.mp hscl).1
  have hdeps : depsOf r u = su.depends_on := by
    rw [← hsun]
    exact depsOf_of_mem hnd hsur
  have hdin := layersAux_topo (closureRegistry r t).length (closureRegistry r t)
    [] A2 layerj (B2 ++ T) hLL su hsu d (hdeps ▸ hd)
  rw [List.nil_append] at hdin
  rw [hA, flatNames_append, flatNames_cons]
  exact List.mem_append_left _ hdin

theorem chain_stays_in_prefix {r : Registry} (hok : loadOk r = true) {t : String}
    (ht : t ∈ names r) {A T : List (List Service)}
    (hsplit : (resolveLayers r t).1 = A ++ T) :
    ∀ (ch : List String), isChainB r ch = true →
      ∀ y, ch.head? = some y → y ∈ flatNames A →
      ∀ x, ch.getLast? = some x → x ∈ flatNames A := by
  intro ch
  induction ch with
  | nil => intro _ y hy; cases hy
  | cons y0 tl ih =>
    intro hchain y hy hyA x hx
    have hy0 : y0 = y := Option.some.inj hy
    subst hy0
    cases tl with
    | nil =>
      have : x = y0 := by
        rw [List.getLast?_singleton] at hx
        exact (Option.some.inj hx).symm
      exact this ▸ hyA
    | cons z tl2 =>
      obtain ⟨hedge, hchain2⟩ := isChainB_cons_cons.mp hchain
      have hz : z ∈ depsOf r y0 := by
        rw [dependsOnB, contains_iff_mem] at hedge
        exact hedge
      have hzA : z ∈ flatNames A := deps_in_prefix hok ht hsplit hyA z hz
      have hlast2 : (z :: tl2).getLast? = some x := by
        rw [← List.getLast?_cons_cons]
        exact hx
      exact ih hchain2 z rfl hzA x hlast2

/-- C8 counterexample: in the registry where A and B have no dependency
relationship in either direction but B depends on C, the Resolver places A
in the first layer and B in the second: the two independent services do not
share a layer, refuting the claim as stated. -/
theorem claim_C8_counterexample :
    loadOk regDepthGap = true ∧
    "A" ∈ closureNames regDepthGap "boot" ∧
    "B" ∈ closureNames regDepthGap "boot" ∧
    ¬ DependsOn regDepthGap "A" "B" ∧
    ¬ DependsOn regDepthGap "B" "A" ∧
    layerNames (resolveLayers regDepthGap "boot").1 = [["A", "C"], ["B"], ["boot"]] ∧
    ¬ (∃ layer ∈ (resolveLayers regDepthGap "boot").1,
        (∃ sA ∈ layer, sA.name = "A") ∧ (∃ sB ∈ layer, sB.name = "B")) := by
  refine ⟨by decide, by decide, by decide, ?_, ?_, by decide, by decide⟩
  · rintro ⟨ch, hlen, hchain, hhead, hlast⟩
    cases ch with
    | nil => cases hhead
    | cons y tl =>
      have hy : y = "A" := Option.some.inj hhead
      subst hy
      cases tl with
      | nil => simp at hlen
      | cons z tl2 =>
        obtain ⟨hedge, _⟩ := isChainB_cons_cons.mp hchain
        have hdeps : depsOf regDepthGap "A" = [] := by rfl
        rw [dependsOnB, hdeps, contains_iff_mem] at hedge
        cases hedge
  · rintro ⟨ch, hlen, hchain, hhead, hlast⟩
    cases ch with
    | nil => cases hhead
    | cons y tl =>
      have hy : y = "B" := Option.some.inj hhead
      subst hy
      cases tl with
      | nil => simp at hlen
      | cons z tl2 =>
        obtain ⟨hedge, hchain2⟩ := isChainB_cons_cons.mp hchain
        have hdeps : depsOf regDepthGap "B" = ["C"] := by rfl
        rw [dependsOnB, hdeps, contains_iff_mem, List.mem_singleton] at hedge
        subst hedge
        cases tl2 with
        | nil =>
          have : (["B", "C"] : List String).getLast? = some "C" := rfl
          rw [this] at hlast
          exact absurd (Option.some.inj hlast) (by decide)
        | cons w tl3 =>
          obtain ⟨hedge2, _⟩ := isChainB_cons_cons.mp hchain2
          have hdeps2 : depsOf regDepthGap "C" = [] := by rfl
          rw [dependsOnB, hdeps2, contains_iff_mem] at hedge2
          cases hedge2

/-- C8 amended: two services that the Resolver does place in one layer have
no dependency relationship (so members of one layer are eligible to start
concurrently); services with no dependency relationship may still land in
different layers when their dependency depths differ. -/
theorem claim_C8_same_layer_independent (r : Registry) (t : String)
    (hok : loadOk r = true) (ht : t ∈ names r)
    (layer : List Service) (hlayer : layer ∈ (resolveLayers r t).1)
    (s s2 : Service) (hs : s ∈ layer) (hs2 : s2 ∈ layer) :
    ¬ DependsOn r s.name s2.name := by
  obtain ⟨_, hnd, hres, _⟩ := loadOk_spec hok
  rintro ⟨ch, hlen, hchain, hhead, hlast⟩
  obtain ⟨A, B, hsplit⟩ := List.append_of_mem hlayer
  have hnodupf : (flatNames (resolveLayers r t).1).Nodup := by
    rw [← start_states_map_fst r spawnAll t]
    exact (start_report hok ht spawnAll).2.1
  cases ch with
  | nil => cases hhead
  | cons y tl =>
    have hy : y = s.name := Option.some.inj hhead
    subst hy
    cases tl with
    | nil => simp at hlen
    | cons z tl2 =>
      obtain ⟨hedge, hchain2⟩ := isChainB_cons_cons.mp hchain
      have hscl : s ∈ closureRegistry r t := resolve_layer_mem hok ht hlayer hs
      have hsr : s ∈ r := (mem_closureRegistry_iff.mp hscl).1
      have hz : z ∈ s.depends_on := dependsOnB_of_service hnd hsr hedge
      have hLL : (resolveLayers r t).1 = A ++ layer :: B := hsplit
      have hzA := layersAux_topo (closureRegistry r t).length (closureRegistry r t)
        [] A layer B hLL s hs z hz
      rw [List.nil_append] at hzA
      have hsplit2 : (resolveLayers r t).1 = A ++ (layer :: B) := hsplit
      have hlast2 : (z :: tl2).getLast? = some s2.name := by
        rw [← List.getLast?_cons_cons]
        exact hlast
      have hs2A : s2.name ∈ flatNames A :=
        chain_stays_in_prefix hok ht hsplit2 (z :: tl2) hchain2 z rfl hzA
          s2.name hlast2
      have hs2layer : s2.name ∈ layer.map Service.name ++ flatNames B :=
        List.mem_append_left _ (List.mem_map_of_mem Service.name hs2)
      have : flatNames (resolveLayers r t).1 =
          flatNames A ++ (layer.map Service.name ++ flatNames B) := by
        rw [hsplit, flatNames_append, flatNames_cons]
      rw [this, List.nodup_append] at hnodupf
      exact hnodupf.2.2 hs2A hs2layer

/-- C8 amended witness: in the two-independent-services registry, a and b
share the first layer and the amended statement yields that a does not
depend on b. -/
theorem claim_C8_witness : ¬ DependsOn regTwinPair "a" "b" :=
  claim_C8_same_layer_independent regTwinPair "boot" (by decide) (by decide)
    [{ name := "a", command := ["a"], depends_on := [], kind := SKind.process },
     { name := "b", command := ["b"], depends_on := [], kind := SKind.process }]
    (by decide)
    { name := "a", command := ["a"], depends_on := [], kind := SKind.process }
    { name := "b", command := ["b"], depends_on := [], kind := SKind.process }
    (by decide) (by decide)
